import Mathlib

/-!
# Verification of the Rydberg VMC / quantum-state-tomography notebooks

Shallow embedding of the Python code in `2_VMC_Rydberg.ipynb`,
`4_QST_BeH2.ipynb` and the Rydberg tomography notebook, together with
proofs of the specified properties.  Machine floats are modelled as exact
real/complex numbers; numpy arrays as functions `ℕ → ℕ → ℂ` (entries
outside the array's range are irrelevant junk); fallible operations
(`functools.reduce` on an empty list) return `Option`.
-/

open scoped BigOperators

/-- Unsized complex matrix: the value of a numpy `ndarray` at a pair of
indices.  The intended size is tracked in the statements. -/
def CMat : Type := ℕ → ℕ → ℂ

/-- Build a 2×2 matrix from its four entries (`np.asarray([[a,b],[c,d]])`). -/
def mat2 (a b c d : ℂ) : CMat := fun i j =>
  if i = 0 then (if j = 0 then a else if j = 1 then b else 0)
  else if i = 1 then (if j = 0 then c else if j = 1 then d else 0)
  else 0

/-- `np.kron A B` for a 2×2 right factor `B`:
`K[i,j] = A[i/2, j/2] * B[i%2, j%2]`. -/
def kron2 (A B : CMat) : CMat := fun i j => A (i / 2) (j / 2) * B (i % 2) (j % 2)

/-- Matrix addition (numpy `+`). -/
def matAdd (A B : CMat) : CMat := fun i j => A i j + B i j

/-- Scalar multiplication (numpy `c * A`). -/
def matSMul (c : ℂ) (A : CMat) : CMat := fun i j => c * A i j

/-- The zero matrix (`np.zeros`). -/
def matZero : CMat := fun _ _ => 0

/-- `functools.reduce(np.kron, l)` for a list of 2×2 matrices: `none` when
`l` is empty (Python raises `TypeError`). -/
def kronReduce (l : List CMat) : Option CMat :=
  match l with
  | [] => none
  | A :: rest => some (rest.foldl kron2 A)

namespace VMC

/-! ## `2_VMC_Rydberg.ipynb`: the `VariationalMonteCarlo` class -/

/-- `coord_to_site(x, y) = Ly*x + y`. -/
def coord_to_site (Ly x y : ℕ) : ℕ := Ly * x + y

/-- The nearest-neighbour bond list `self.nn` built by `buildlattice`. -/
def nnList (Lx Ly : ℕ) : List (ℕ × ℕ) :=
  ((List.range Lx).flatMap fun x => (List.range (Ly - 1)).map fun y =>
    (coord_to_site Ly x y, coord_to_site Ly x (y + 1)))
  ++ ((List.range Ly).flatMap fun y => (List.range (Lx - 1)).map fun x =>
    (coord_to_site Ly x y, coord_to_site Ly (x + 1) y))

/-- The next-nearest-neighbour bond list `self.nnn` built by `buildlattice`. -/
def nnnList (Lx Ly : ℕ) : List (ℕ × ℕ) :=
  (List.range (Ly - 1)).flatMap fun y => (List.range (Lx - 1)).flatMap fun x =>
    [(coord_to_site Ly x y, coord_to_site Ly (x + 1) (y + 1)),
     (coord_to_site Ly (x + 1) y, coord_to_site Ly x (y + 1))]

/-- The next-next-nearest-neighbour bond list `self.nnnn` built by
`buildlattice`. -/
def nnnnList (Lx Ly : ℕ) : List (ℕ × ℕ) :=
  ((List.range Ly).flatMap fun y => (List.range (Lx - 2)).map fun x =>
    (coord_to_site Ly x y, coord_to_site Ly (x + 2) y))
  ++ ((List.range (Ly - 2)).flatMap fun y => (List.range Lx).map fun x =>
    (coord_to_site Ly x y, coord_to_site Ly x (y + 2)))

/-- `buildlattice` populates the three bond lists `self.nn`, `self.nnn`,
`self.nnnn`. -/
def buildlattice (Lx Ly : ℕ) : List (ℕ × ℕ) × List (ℕ × ℕ) × List (ℕ × ℕ) :=
  (nnList Lx Ly, nnnList Lx Ly, nnnnList Lx Ly)

/-- State of a `VariationalMonteCarlo` instance: the Hamiltonian parameters
together with the (abstract) trained network, represented by the function
taking a configuration to its log-amplitude `self.logpsi`. -/
structure Model where
  Lx : ℕ
  Ly : ℕ
  V : ℝ
  Omega : ℝ
  delta : ℝ
  logpsiFn : List ℕ → ℝ

/-- `self.N = Lx * Ly`. -/
def Model.N (M : Model) : ℕ := M.Lx * M.Ly

/-- `flip_samples = np.copy(samples); flip_samples[:,j] = 1 - flip_samples[:,j]`
for a single sample row. -/
def flipAt (s : List ℕ) (j : ℕ) : List ℕ := s.set j (1 - s.getD j 0)

/-- `localenergy(samples, logpsi)` for a single sample row `s`, whose passed
log-amplitude is `lp`.  Follows the source loops: chemical potential, NN,
NNN, NNNN interactions, then the off-diagonal Rabi term (which calls
`self.logpsi` on the flipped copies). -/
noncomputable def localenergy (M : Model) (s : List ℕ) (lp : ℝ) : ℝ :=
  let e0 : ℝ := 0
  let e1 := (List.range M.N).foldl
    (fun e j => e + -M.delta * ((s.getD j 0 : ℕ) : ℝ)) e0
  let e2 := (nnList M.Lx M.Ly).foldl
    (fun e b => e + M.V * (((s.getD b.1 0 * s.getD b.2 0 : ℕ) : ℝ))) e1
  let e3 := (nnnList M.Lx M.Ly).foldl
    (fun e b => e + (M.V / 8) * (((s.getD b.1 0 * s.getD b.2 0 : ℕ) : ℝ))) e2
  let e4 := (nnnnList M.Lx M.Ly).foldl
    (fun e b => e + (M.V / 64) * (((s.getD b.1 0 * s.getD b.2 0 : ℕ) : ℝ))) e3
  (List.range M.N).foldl
    (fun e j => e + -0.5 * M.Omega * Real.exp (M.logpsiFn (flipAt s j) - lp)) e4

/-- `localenergy` with the samples array threaded as mutable state: each
off-diagonal iteration flips a bit of `np.copy(samples)`, leaving the
original row untouched; the final samples row is returned alongside the
energy. -/
noncomputable def localenergyRun (M : Model) (s : List ℕ) (lp : ℝ) : ℝ × List ℕ :=
  let e4 := (nnnnList M.Lx M.Ly).foldl
    (fun e b => e + (M.V / 64) * (((s.getD b.1 0 * s.getD b.2 0 : ℕ) : ℝ)))
    ((nnnList M.Lx M.Ly).foldl
      (fun e b => e + (M.V / 8) * (((s.getD b.1 0 * s.getD b.2 0 : ℕ) : ℝ)))
      ((nnList M.Lx M.Ly).foldl
        (fun e b => e + M.V * (((s.getD b.1 0 * s.getD b.2 0 : ℕ) : ℝ)))
        ((List.range M.N).foldl
          (fun e j => e + -M.delta * ((s.getD j 0 : ℕ) : ℝ)) 0)))
  (List.range M.N).foldl
    (fun es j =>
      let flip_samples := es.2.set j (1 - es.2.getD j 0)
      ((es.1 + -0.5 * M.Omega * Real.exp (M.logpsiFn flip_samples - lp)), es.2))
    (e4, s)

/-! ### The RNN wavefunction (`sample` / `logpsi`)

The GRU layer and the dense softmax layer are `tf.keras` primitives; they
are abstracted as an arbitrary recurrence `cell` (a GRU's per-step output
equals its new hidden state) and an arbitrary per-step distribution
`dense`, over an arbitrary hidden-state type `H`.  Sampling from
`tf.random.categorical` is modelled by passing the list of drawn outcomes
explicitly. -/

/-- Abstract RNN wavefunction: hidden-state type `H`, number of spins `N`,
the zero initial hidden state `h0` (`tf.zeros`), the GRU cell and the dense
softmax layer. -/
structure RNN (H : Type _) where
  N : ℕ
  h0 : H
  cell : (Fin 2 → ℝ) → H → H
  dense : H → Fin 2 → ℝ

/-- `tf.one_hot(s, depth=2)`. -/
def oneHot (k : Fin 2) : Fin 2 → ℝ := fun i => if i = k then 1 else 0

/-- `0.0 * tf.one_hot(0, depth=2)`: the zero input vector. -/
def inputZero : Fin 2 → ℝ := fun _ => 0

/-- The body of the `sample` loop: at each step run one GRU cell, read the
log-probability of the drawn outcome `d`, then feed `one_hot(d)` to the
next cell.  Returns the drawn configuration and the accumulated `logP`. -/
noncomputable def sampleSteps {H : Type _} (R : RNN H) :
    List (Fin 2) → (Fin 2 → ℝ) → H → List (Fin 2) × ℝ
  | [], _, _ => ([], 0)
  | d :: ds, inp, h =>
    let hNew := R.cell inp h
    let lp := Real.log (1e-10 + R.dense hNew d)
    let rest := sampleSteps R ds (oneHot d) hNew
    (d :: rest.1, lp + rest.2)

/-- `sample(nsamples)` for one Monte Carlo chain, with the categorical draws
given by `draws`: starts from the zero input and zero hidden state. -/
noncomputable def sample {H : Type _} (R : RNN H) (draws : List (Fin 2)) :
    List (Fin 2) × ℝ :=
  sampleSteps R draws inputZero R.h0

/-- The sequence of hidden states produced by running the GRU over a full
input sequence (`return_sequences=True`), starting from hidden state `h`. -/
def hiddenSeq {H : Type _} (R : RNN H) : List (Fin 2 → ℝ) → H → List H
  | [], _ => []
  | i :: is, h =>
    let hNew := R.cell i h
    hNew :: hiddenSeq R is hNew

/-- `logpsi(samples)` for one sample row: shift the data by one step
(`x0` followed by the one-hot encodings of the first `N-1` spins), run the
GRU from the zero hidden state, and sum the log-probabilities of the
actual spins; the log-amplitude is half the log-probability. -/
noncomputable def logpsi {H : Type _} (R : RNN H) (samples : List (Fin 2)) : ℝ :=
  0.5 * ((((hiddenSeq R (inputZero :: (samples.take (R.N - 1)).map oneHot) R.h0).zip
    samples).map fun p => Real.log (1e-10 + R.dense p.1 p.2)).sum)

end VMC

/-! ## NetKet `LocalOperator` model

`nk.operator.LocalOperator` objects are modelled symbolically as formal
sums of terms: a constant term `c` stands for `c` times the identity on
the full Hilbert space, and a sited term `(sites, A)` stands for the
matrix `A` acting on the tensor factors listed in `sites` (first site
most significant, matching `np.kron` order) and trivially elsewhere;
`+=` appends a term. -/

/-- One term of a NetKet `LocalOperator`. -/
inductive NKTerm where
  | const : ℝ → NKTerm
  | sited : List ℕ → CMat → NKTerm

/-- A NetKet `LocalOperator`: a formal sum of terms. -/
abbrev NKOp : Type := List NKTerm

/-- Big-endian index of a list of qubit values: `bitsIdx [b0,…,bk] =
b0·2^k + … + bk`, the row index of the basis state `|b0…bk⟩` under
`np.kron` ordering. -/
def bitsIdx (bs : List ℕ) : ℕ := bs.foldl (fun acc b => 2 * acc + b) 0

/-- Diagonal matrix element of one `LocalOperator` term in the occupation
configuration `σ`.  Modelled from the NetKet semantics: a constant term
contributes itself, a term `A` on `sites` contributes the diagonal entry
of `A` at the sub-configuration of `σ` on those sites. -/
noncomputable def diagTerm (σ : List ℕ) : NKTerm → ℂ
  | NKTerm.const c => (c : ℂ)
  | NKTerm.sited sites A =>
    A (bitsIdx (sites.map fun t => σ.getD t 0)) (bitsIdx (sites.map fun t => σ.getD t 0))

/-- Diagonal matrix element `⟨σ|H|σ⟩` of a modelled `LocalOperator`. -/
noncomputable def diagElem (Hop : NKOp) (σ : List ℕ) : ℂ :=
  (Hop.map (diagTerm σ)).sum

namespace QST

/-! ## The Rydberg tomography notebook -/

/-- `coord_to_site(Ly, x, y) = Ly*x + y` (the local helper in
`buildlattice`). -/
def coord_to_site (Ly x y : ℕ) : ℕ := Ly * x + y

/-- `buildlattice(Lx, Ly)`: the three bond lists `nn`, `nnn`, `nnnn` of the
square lattice with open boundaries. -/
def buildlattice (Lx Ly : ℕ) : List (ℕ × ℕ) × List (ℕ × ℕ) × List (ℕ × ℕ) :=
  let nn :=
    ((List.range Lx).flatMap fun x => (List.range (Ly - 1)).map fun y =>
      (coord_to_site Ly x y, coord_to_site Ly x (y + 1)))
    ++ ((List.range Ly).flatMap fun y => (List.range (Lx - 1)).map fun x =>
      (coord_to_site Ly x y, coord_to_site Ly (x + 1) y))
  let nnn :=
    (List.range (Ly - 1)).flatMap fun y => (List.range (Lx - 1)).flatMap fun x =>
      [(coord_to_site Ly x y, coord_to_site Ly (x + 1) (y + 1)),
       (coord_to_site Ly (x + 1) y, coord_to_site Ly x (y + 1))]
  let nnnn :=
    ((List.range Ly).flatMap fun y => (List.range (Lx - 2)).map fun x =>
      (coord_to_site Ly x y, coord_to_site Ly (x + 2) y))
    ++ ((List.range (Ly - 2)).flatMap fun y => (List.range Lx).map fun x =>
      (coord_to_site Ly x y, coord_to_site Ly x (y + 2)))
  (nn, nnn, nnnn)

/-- `P = np.asarray([[0,0],[0,1]])`: the Rydberg occupation projector. -/
def P : CMat := mat2 0 0 0 1

/-- `PP = np.kron(P, P)`. -/
def PP : CMat := kron2 P P

/-- `sx = np.asarray([[0,1],[1,0]])`. -/
def sx : CMat := mat2 0 1 1 0

/-- `generatehamiltonian(hilbert, Lx, Ly, V, Omega, delta)`: transverse
field, chemical potential, and NN/NNN/NNNN interactions, as a formal sum
of `LocalOperator` terms (starting from the empty operator
`nk.operator.LocalOperator(hilbert)`). -/
noncomputable def generatehamiltonian (Lx Ly : ℕ) (V Omega delta : ℝ) : NKOp :=
  let N := Lx * Ly
  let bonds := buildlattice Lx Ly
  ((List.range N).map fun j => NKTerm.sited [j] (matSMul ((-0.5 * Omega : ℝ) : ℂ) sx))
  ++ ((List.range N).map fun j => NKTerm.sited [j] (matSMul ((-delta : ℝ) : ℂ) P))
  ++ (bonds.1.map fun bond => NKTerm.sited [bond.1, bond.2] (matSMul ((V : ℝ) : ℂ) PP))
  ++ (bonds.2.1.map fun bond => NKTerm.sited [bond.1, bond.2] (matSMul ((V / 8 : ℝ) : ℂ) PP))
  ++ (bonds.2.2.map fun bond => NKTerm.sited [bond.1, bond.2] (matSMul ((V / 64 : ℝ) : ℂ) PP))

end QST

namespace BeH2

/-! ## `4_QST_BeH2.ipynb` -/

/-- Identity, `np.asarray([[1,0],[0,1]])`. -/
def I : CMat := mat2 1 0 0 1

/-- Pauli X. -/
def X : CMat := mat2 0 1 1 0

/-- Pauli Y, `np.asarray([[0,-1j],[1j,0]])`. -/
def Y : CMat := mat2 0 (-Complex.I) Complex.I 0

/-- Pauli Z. -/
def Z : CMat := mat2 1 0 0 (-1)

/-- The matrix appended to `op_list` for one character of a Pauli string in
`operatorfromstring`: `X`/`Y`/`Z` give the Pauli matrices, anything else
(including `I`) gives the identity. -/
def charMat (c : Char) : CMat :=
  if c = 'X' then X else if c = 'Y' then Y else if c = 'Z' then Z else I

/-- `operatorfromstring(pauli_string) = reduce(np.kron, op_list)`; `none`
when the string is empty (Python `reduce` raises). -/
def operatorfromstring (pauli_string : List Char) : Option CMat :=
  kronReduce (pauli_string.map charMat)

/-- `hamiltonian(pauli_list, interactions)`: starting from
`np.zeros((1<<N, 1<<N))`, add `interactions[i] * operatorfromstring(pauli)`
for each Pauli string. -/
def hamiltonian (pauli_list : List (List Char)) (interactions : List ℂ) :
    Option CMat :=
  (pauli_list.zip interactions).foldlM
    (fun acc p => (operatorfromstring p.1).map fun op => matAdd acc (matSMul p.2 op))
    matZero

/-- Bit `t` (0-based from the most significant of `N` bits) of the row
index `i`: the value of qubit `t` in basis state `i` under `np.kron`
ordering. -/
def bitAt (N t i : ℕ) : ℕ := i / 2 ^ (N - 1 - t) % 2

/-- Modelled from the documented contract of `np.linalg.eigh`: the
eigenvalues `w` in ascending order, the matrix `v` whose columns are the
corresponding orthonormal eigenvectors, covering every eigenvalue of the
Hermitian input `H`. -/
structure EighData (n : ℕ) (H : Matrix (Fin n) (Fin n) ℂ) where
  w : Fin n → ℝ
  v : Matrix (Fin n) (Fin n) ℂ
  ascending : ∀ i j : Fin n, i ≤ j → w i ≤ w j
  eigen : ∀ i, H.mulVec (fun r => v r i) = ((w i : ℝ) : ℂ) • (fun r => v r i)
  unit : ∀ i, (∑ r, Complex.normSq (v r i)) = 1
  complete : ∀ (μ : ℂ) (x : Fin n → ℂ), x ≠ 0 → H.mulVec x = μ • x →
    ∃ i, ((w i : ℝ) : ℂ) = μ

/-- `eigensolve(hamiltonian)`: `np.linalg.eigh` followed by taking
`eigenvalues[0]` and `eigenstates[:,0]`. -/
def eigensolve {n : ℕ} {H : Matrix (Fin (n + 1)) (Fin (n + 1)) ℂ}
    (e : EighData (n + 1) H) : ℝ × (Fin (n + 1) → ℂ) :=
  (e.w 0, fun r => e.v r 0)

/-- `rotationX = 1/sqrt(2) * [[1,1],[1,-1]]`. -/
noncomputable def rotationX : CMat :=
  matSMul (((1 / Real.sqrt 2 : ℝ) : ℂ)) (mat2 1 1 1 (-1))

/-- `rotationY = 1/sqrt(2) * [[1,-1j],[1,1j]]`. -/
noncomputable def rotationY : CMat :=
  matSMul (((1 / Real.sqrt 2 : ℝ) : ℂ)) (mat2 1 (-Complex.I) 1 Complex.I)

/-- Python string comparison (lexicographic on code points):
`[] ≤ l`; a nonempty list is never `≤ []`; otherwise compare heads, then
recurse on ties. -/
def lexLe : List Char → List Char → Bool
  | [], _ => true
  | _ :: _, [] => false
  | a :: as, b :: bs => if a < b then true else if b < a then false else lexLe as bs

/-- A `LocalOperator` product (`localop *= …`): the formal ordered list of
`(site, single-qubit matrix)` factors, starting from the scalar identity
`LocalOperator(hilbert, 1.0)`. -/
abbrev RotOp : Type := List (ℕ × CMat)

/-- The rotation operator built by `LoadData` for a basis string `b`: scan
the `N` qubits, appending a `rotationX` factor at each `'X'` and a
`rotationY` factor at each `'Y'`. -/
noncomputable def rotFor (N : ℕ) (b : List Char) : RotOp :=
  (List.range N).foldl (fun acc j =>
    let acc1 := if b.getD j ' ' = 'X' then acc ++ [(j, rotationX)] else acc
    if b.getD j ' ' = 'Y' then acc1 ++ [(j, rotationY)] else acc1) []

/-- The rotation described by the spec: one `rotationX` factor per `'X'`
position and one `rotationY` factor per `'Y'` position of the string, in
site order. -/
noncomputable def rotSpec (b : List Char) : RotOp :=
  b.enum.filterMap fun p =>
    if p.2 = 'X' then some (p.1, rotationX)
    else if p.2 = 'Y' then some (p.1, rotationY)
    else none

/-- One step of the rotation-building loop in `LoadData`: state is
`(tmp, b_index, rotations, training_bases)`; a basis string different from
`tmp` opens a new group (build its rotation, increment `b_index`), and
every string appends the current `b_index` to `training_bases`. -/
noncomputable def rotLoopStep (N : ℕ) (st : List Char × ℤ × List RotOp × List ℤ)
    (b : List Char) : List Char × ℤ × List RotOp × List ℤ :=
  if b ≠ st.1 then
    (b, st.2.1 + 1, st.2.2.1 ++ [rotFor N b], st.2.2.2 ++ [st.2.1 + 1])
  else
    (st.1, st.2.1, st.2.2.1, st.2.2.2 ++ [st.2.1])

/-- The `bases` list built by `LoadData`: the first `N` characters of each
line of the bases file. -/
def basesOf (N : ℕ) (lines : List (List Char)) : List (List Char) :=
  lines.map fun b => b.take N

/-- `index_list = sorted(range(len(bases)), key=lambda k: bases[k])`: the
stable argsort of the basis strings. -/
def argsortBases (N : ℕ) (lines : List (List Char)) : List ℕ :=
  (List.range (basesOf N lines).length).mergeSort fun a b =>
    lexLe ((basesOf N lines).getD a []) ((basesOf N lines).getD b [])

/-- `bases.sort()`: the basis strings in ascending order. -/
def sortedBasesOf (N : ℕ) (lines : List (List Char)) : List (List Char) :=
  (basesOf N lines).mergeSort lexLe

/-- `LoadData(N, hilbert, path_to_samples, path_to_bases)` with the file
contents passed directly: `tsamples` are the rows of the samples file,
`lines` the lines of the bases file.  Computes the stable argsort of the
basis strings, sorts the bases, permutes the samples accordingly, and
builds one rotation per group of equal basis strings. -/
noncomputable def LoadData (N : ℕ) (tsamples : List (List ℝ)) (lines : List (List Char)) :
    List RotOp × List (List ℝ) × List ℤ :=
  let training_samples := (List.range tsamples.length).map fun i =>
    tsamples.getD ((argsortBases N lines).getD i 0) []
  let st := (sortedBasesOf N lines).foldl (rotLoopStep N) ([], -1, [], [])
  (st.2.2.1, training_samples, st.2.2.2)

/-- `OperatorFromString(op_string)`: collect the Pauli matrices and the
sites of the non-identity characters, then `reduce(np.kron, OpList)`;
`none` when `OpList` is empty (Python `reduce` raises). -/
def OperatorFromString (op_string : List Char) : Option (List ℕ × CMat) :=
  let scan := op_string.enum.foldl
    (fun acc p =>
      if p.2 = 'X' then (acc.1 ++ [X], acc.2 ++ [p.1])
      else if p.2 = 'Y' then (acc.1 ++ [Y], acc.2 ++ [p.1])
      else if p.2 = 'Z' then (acc.1 ++ [Z], acc.2 ++ [p.1])
      else acc)
    (([], []) : List CMat × List ℕ)
  (kronReduce scan.1).map fun m => (scan.2, m)

/-- `BuildHamiltonian(N, hilbert, pauli_path, interactions_path)` with the
loaded arrays passed directly.  Starts from `LocalOperator(hilbert, 0.0)`;
an all-identity string (the `flag == 0` branch) contributes the real part
of its coefficient as a constant, any other string contributes
`interactions[h] * OperatorFromString(pauli[h])` on its sites. -/
def BuildHamiltonian (N : ℕ) (pauli : List (List Char)) (interactions : List ℂ) :
    Option NKOp :=
  (pauli.zip interactions).foldlM
    (fun acc p =>
      if (List.range N).any (fun j => decide (p.1.getD j ' ' ≠ 'I')) then
        (OperatorFromString p.1).map fun so =>
          acc ++ [NKTerm.sited so.1 (matSMul p.2 so.2)]
      else some (acc ++ [NKTerm.const p.2.re]))
    ([NKTerm.const 0] : NKOp)

/-- The sites of the `'X'`/`'Y'`/`'Z'` characters of a Pauli string. -/
def xyzSites (s : List Char) : List ℕ :=
  s.enum.filterMap fun p =>
    if p.2 = 'X' then some p.1 else if p.2 = 'Y' then some p.1
    else if p.2 = 'Z' then some p.1 else none

/-- The Pauli matrices at the `'X'`/`'Y'`/`'Z'` characters of a string. -/
def xyzMats (s : List Char) : List CMat :=
  s.filterMap fun c =>
    if c = 'X' then some X else if c = 'Y' then some Y
    else if c = 'Z' then some Z else none

/-- Total Kronecker product of a list of 2×2 matrices (junk on `[]`). -/
def kronOf (l : List CMat) : CMat :=
  match l with
  | [] => matZero
  | A :: rest => rest.foldl kron2 A

/-- The `LocalOperator` term the spec assigns to one Pauli string with its
coefficient: a constant equal to the real part of the coefficient for an
all-identity string, otherwise the coefficient times the Kronecker product
of the Pauli matrices at the non-identity positions, acting on exactly
those sites. -/
def specTerm (p : List Char × ℂ) : NKTerm :=
  if p.1.all fun c => c = 'I' then NKTerm.const p.2.re
  else NKTerm.sited (xyzSites p.1) (matSMul p.2 (kronOf (xyzMats p.1)))

end BeH2

/-! ## Concrete instances used by the witness theorems -/

/-- A 2×1 lattice model with trivial network, used to witness hypotheses. -/
noncomputable def mdlW : VMC.Model := ⟨2, 1, 1, 1, 1, fun _ => 0⟩

/-- A concrete two-spin RNN over hidden-state type `ℝ`. -/
noncomputable def rnnW : VMC.RNN ℝ :=
  ⟨2, 0, fun i h => h + i 0, fun h k => h + ((k : ℕ) : ℝ)⟩

/-- The 1×1 Hermitian matrix `[[2]]`. -/
def HW : Matrix (Fin 1) (Fin 1) ℂ := fun _ _ => 2

/-- A concrete eigen-decomposition of `HW`. -/
def eighW : BeH2.EighData 1 HW where
  w := fun _ => 2
  v := fun _ _ => 1
  ascending := fun i j _ => le_refl 2
  eigen := by
    intro i
    funext r
    simp [HW, Matrix.mulVec, Matrix.dotProduct]
  unit := by
    intro i
    simp
  complete := by
    intro μ x hx0 hxe
    have hx : x 0 ≠ 0 := by
      intro h0
      apply hx0
      funext r
      have hr : r = 0 := Subsingleton.elim r 0
      simp [hr, h0]
    have heq := congrFun hxe 0
    simp [HW, Matrix.mulVec, Matrix.dotProduct] at heq
    refine ⟨0, ?_⟩
    have h2 : (2 : ℂ) = μ := by
      rcases heq with h | h
      · exact h
      · exact absurd h hx
    rw [← h2]
    norm_num

section FoldHelpers

/-- Accumulating `foldl` of pointwise additions is the starting value plus
the sum of the mapped list. -/
theorem foldl_add_eq_sum {α : Type _} (f : α → ℝ) (l : List α) (a : ℝ) :
    l.foldl (fun e x => e + f x) a = a + (l.map f).sum := by
  induction l generalizing a with
  | nil => simp
  | cons x xs ih => simp [ih, add_assoc]

/-- Factoring a constant out of a mapped list sum. -/
theorem sum_map_smul {α : Type _} (c : ℝ) (f : α → ℝ) (l : List α) :
    (l.map fun x => c * f x).sum = c * (l.map f).sum :=
  List.sum_map_mul_left l f c

/-- A fold whose step keeps the second component fixed returns the second
component of its starting state. -/
theorem foldl_keep_snd {α β γ : Type _} (f : α × β → γ → α) (l : List γ) (p : α × β) :
    (l.foldl (fun es x => (f es x, es.2)) p).2 = p.2 := by
  induction l generalizing p with
  | nil => rfl
  | cons x xs ih => simpa using ih (f p x, p.2)

end FoldHelpers

section RNNHelpers

/-- The configuration returned by the sampling loop is the list of draws. -/
theorem sampleSteps_fst {H : Type _} (R : VMC.RNN H) (ds : List (Fin 2))
    (inp : Fin 2 → ℝ) (h : H) :
    (VMC.sampleSteps R ds inp h).1 = ds := by
  induction ds generalizing inp h with
  | nil => rfl
  | cons d ds ih => simp [VMC.sampleSteps, ih]

/-- The `logP` accumulated by the sampling loop is the sum, over the per-step
hidden states of the same input sequence, of the log-probabilities of the
drawn outcomes. -/
theorem sampleSteps_snd {H : Type _} (R : VMC.RNN H) (ds : List (Fin 2))
    (inp : Fin 2 → ℝ) (h : H) :
    (VMC.sampleSteps R ds inp h).2 =
      (((VMC.hiddenSeq R (inp :: ds.map VMC.oneHot) h).zip ds).map
        fun p => Real.log (1e-10 + R.dense p.1 p.2)).sum := by
  induction ds generalizing inp h with
  | nil => simp [VMC.sampleSteps, VMC.hiddenSeq]
  | cons d ds ih =>
    simp only [VMC.sampleSteps, VMC.hiddenSeq, List.map_cons, List.zip_cons_cons,
      List.sum_cons]
    rw [ih (VMC.oneHot d) (R.cell inp h)]
    rfl

/-- Running the GRU over a truncated input sequence yields the truncated
hidden-state sequence. -/
theorem hiddenSeq_take {H : Type _} (R : VMC.RNN H) (l : List (Fin 2 → ℝ))
    (h : H) (k : ℕ) :
    VMC.hiddenSeq R (l.take k) h = (VMC.hiddenSeq R l h).take k := by
  induction l generalizing h k with
  | nil => simp [VMC.hiddenSeq]
  | cons i is ih =>
    cases k with
    | zero => simp [VMC.hiddenSeq]
    | succ k => simp [VMC.hiddenSeq, ih]

/-- Truncating the left list to the right list's length does not change a
zip. -/
theorem zip_take_length {α β : Type _} (l : List α) (ds : List β) :
    (l.take ds.length).zip ds = l.zip ds := by
  induction ds generalizing l with
  | nil => simp
  | cons d ds ih =>
    cases l with
    | nil => simp
    | cons a l => simp [ih]

end RNNHelpers

/-- C2: on the configurations it has just sampled, the autoregressive
wavefunction's log-amplitude equals half the log-probability accumulated
during sampling: `logpsi(sample(ns).samples) = 0.5 * sample(ns).logP`,
because both run the same GRU-plus-softmax network on the same
zero-initialised, one-step-shifted inputs. -/
theorem claim_C2 {H : Type _} (R : VMC.RNN H) (draws : List (Fin 2))
    (hlen : draws.length = R.N) :
    VMC.logpsi R (VMC.sample R draws).1 = 0.5 * (VMC.sample R draws).2 := by
  unfold VMC.sample VMC.logpsi
  rw [sampleSteps_fst, sampleSteps_snd]
  cases draws with
  | nil => simp
  | cons d ds =>
    have hN1 : R.N - 1 = ds.length := by
      simp [← hlen]
    rw [hN1, List.map_take]
    rw [show VMC.inputZero :: ((d :: ds).map VMC.oneHot).take ds.length
        = (VMC.inputZero :: (d :: ds).map VMC.oneHot).take (d :: ds).length from rfl]
    rw [hiddenSeq_take, zip_take_length]

/-- Witness for C2 at a concrete two-spin RNN over the hidden-state type
`ℝ` and the draws `[0, 1]`. -/
theorem claim_C2_witness :
    (([0, 1] : List (Fin 2)).length = rnnW.N) ∧
    VMC.logpsi rnnW (VMC.sample rnnW [0, 1]).1 = 0.5 * (VMC.sample rnnW [0, 1]).2 :=
  ⟨by decide, claim_C2 rnnW [0, 1] (by decide)⟩

section KronHelpers

/-- Entry formula for a left fold of `np.kron` against 2×2 factors: bit `t`
of the row/column index (counted from the most significant) selects the
entry of the `t`-th factor. -/
theorem kron_foldl_apply (l : List CMat) (A : CMat) (i j : ℕ) :
    (l.foldl kron2 A) i j
      = A (i / 2 ^ l.length) (j / 2 ^ l.length)
        * ∏ t in Finset.range l.length,
            (l.getD t matZero) (i / 2 ^ (l.length - 1 - t) % 2)
              (j / 2 ^ (l.length - 1 - t) % 2) := by
  induction l generalizing A with
  | nil => simp
  | cons B rest ih =>
    rw [List.foldl_cons, ih (kron2 A B), List.length_cons, Finset.prod_range_succ']
    have hstep : ∀ t ∈ Finset.range rest.length,
        ((B :: rest).getD (t + 1) matZero)
            (i / 2 ^ (rest.length + 1 - 1 - (t + 1)) % 2)
            (j / 2 ^ (rest.length + 1 - 1 - (t + 1)) % 2)
          = (rest.getD t matZero) (i / 2 ^ (rest.length - 1 - t) % 2)
              (j / 2 ^ (rest.length - 1 - t) % 2) := by
      intro t ht
      have h3 : rest.length + 1 - 1 - (t + 1) = rest.length - 1 - t := by omega
      rw [List.getD_cons_succ, h3]
    rw [Finset.prod_congr rfl hstep, List.getD_cons_zero]
    have h0 : rest.length + 1 - 1 - 0 = rest.length := by omega
    rw [h0]
    unfold kron2
    rw [Nat.div_div_eq_div_mul, Nat.div_div_eq_div_mul, ← pow_succ]
    ring

/-- `operatorfromstring` on a nonempty string succeeds, returning the fold
of `np.kron` over the per-character matrices. -/
theorem operatorfromstring_cons (c : Char) (cs : List Char) :
    BeH2.operatorfromstring (c :: cs)
      = some ((cs.map BeH2.charMat).foldl kron2 (BeH2.charMat c)) := rfl

/-- Entry formula for `operatorfromstring` on a nonempty string: within the
`2^N × 2^N` range the entry is the product over positions of the selected
Pauli/identity matrix entries. -/
theorem operatorfromstring_entry (c : Char) (cs : List Char) (i j : ℕ)
    (hi : i < 2 ^ (cs.length + 1)) (hj : j < 2 ^ (cs.length + 1)) :
    ((cs.map BeH2.charMat).foldl kron2 (BeH2.charMat c)) i j
      = ∏ t in Finset.range (cs.length + 1),
          BeH2.charMat ((c :: cs).getD t 'I')
            (BeH2.bitAt (cs.length + 1) t i) (BeH2.bitAt (cs.length + 1) t j) := by
  rw [kron_foldl_apply, Finset.prod_range_succ']
  have hlen : (cs.map BeH2.charMat).length = cs.length := List.length_map _ _
  have hdivi : i / 2 ^ cs.length < 2 := by
    apply Nat.div_lt_of_lt_mul
    rw [← pow_succ]
    exact hi
  have hdivj : j / 2 ^ cs.length < 2 := by
    apply Nat.div_lt_of_lt_mul
    rw [← pow_succ]
    exact hj
  have hbit0 : ∀ x : ℕ, x / 2 ^ cs.length < 2 →
      BeH2.bitAt (cs.length + 1) 0 x = x / 2 ^ cs.length := by
    intro x hx
    unfold BeH2.bitAt
    rw [Nat.add_sub_cancel, Nat.sub_zero, Nat.mod_eq_of_lt hx]
  rw [hlen, List.getD_cons_zero, hbit0 i hdivi, hbit0 j hdivj]
  have hfac : ∀ t ∈ Finset.range cs.length,
      (cs.map BeH2.charMat).getD t matZero (i / 2 ^ (cs.length - 1 - t) % 2)
          (j / 2 ^ (cs.length - 1 - t) % 2)
        = BeH2.charMat ((c :: cs).getD (t + 1) 'I')
            (BeH2.bitAt (cs.length + 1) (t + 1) i)
            (BeH2.bitAt (cs.length + 1) (t + 1) j) := by
    intro t ht
    rw [Finset.mem_range] at ht
    have h1 : (cs.map BeH2.charMat).getD t matZero = BeH2.charMat (cs.getD t 'I') := by
      rw [List.getD_eq_getElem _ _ (by simpa using ht), List.getD_eq_getElem _ _ ht,
        List.getElem_map]
    have h2 : cs.length + 1 - 1 - (t + 1) = cs.length - 1 - t := by omega
    rw [h1, List.getD_cons_succ]
    unfold BeH2.bitAt
    rw [h2]
  rw [Finset.prod_congr rfl hfac]
  ring

/-- Sum over a zipped list of coefficients, as an indexed sum. -/
theorem map_zip_sum_eq {α : Type _} (dflt : α) (pl : List α) (ints : List ℂ)
    (hlen : ints.length = pl.length) (g : α → ℂ) :
    ((pl.zip ints).map fun p => p.2 * g p.1).sum
      = ∑ k in Finset.range pl.length, ints.getD k 0 * g (pl.getD k dflt) := by
  induction pl generalizing ints with
  | nil => simp
  | cons a pl ih =>
    cases ints with
    | nil => simp at hlen
    | cons b ints =>
      simp only [List.zip_cons_cons, List.map_cons, List.sum_cons, List.length_cons,
        Finset.sum_range_succ']
      rw [ih ints (by simpa using hlen)]
      simp [add_comm]

/-- The accumulating fold of `hamiltonian` succeeds on nonempty strings and
computes the pointwise sum of the scaled string operators. -/
theorem ham_fold (L : List (List Char × ℂ)) (hne : ∀ p ∈ L, p.1 ≠ []) (A : CMat) :
    ∃ Hm, L.foldlM (fun acc p =>
        (BeH2.operatorfromstring p.1).map fun op => matAdd acc (matSMul p.2 op)) A
      = some Hm ∧
      ∀ i j, Hm i j = A i j + ((L.map fun p => p.2 * BeH2.kronOf (p.1.map BeH2.charMat) i j).sum) := by
  induction L generalizing A with
  | nil => exact ⟨A, rfl, by simp⟩
  | cons p L ih =>
    obtain ⟨c, cs, hp1⟩ : ∃ c cs, p.1 = c :: cs := by
      cases hp : p.1 with
      | nil => exact absurd hp (hne p (List.mem_cons_self p L))
      | cons c cs => exact ⟨c, cs, rfl⟩
    obtain ⟨Hm, h1, h2⟩ := ih (fun q hq => hne q (List.mem_cons_of_mem p hq))
      (matAdd A (matSMul p.2 (BeH2.kronOf (p.1.map BeH2.charMat))))
    refine ⟨Hm, ?_, ?_⟩
    · rw [List.foldlM_cons, hp1, operatorfromstring_cons]
      simpa [BeH2.kronOf, hp1] using h1
    · intro i j
      rw [h2 i j]
      simp only [matAdd, matSMul, List.map_cons, List.sum_cons]
      ring

end KronHelpers

/-- C4: `hamiltonian(pauli_list, interactions)` is the `2^N × 2^N` matrix
`Σ_k interactions[k] · operatorfromstring(pauli_list[k])`, where each
string operator is the ordered Kronecker product over all `N` positions of
the Pauli matrix for `X`/`Y`/`Z` and the identity otherwise: entrywise,
bit `t` (most significant first) of the row/column index selects the entry
of position `t`'s matrix. -/
theorem claim_C4 (pl : List (List Char)) (ints : List ℂ) (N : ℕ)
    (hpl : pl ≠ []) (hN : ∀ s ∈ pl, s.length = N) (hN0 : 0 < N)
    (hlen : ints.length = pl.length) :
    ∃ Hm, BeH2.hamiltonian pl ints = some Hm ∧
      ∀ i j, i < 2 ^ N → j < 2 ^ N →
        Hm i j = ∑ k in Finset.range pl.length,
          ints.getD k 0 * ∏ t in Finset.range N,
            BeH2.charMat ((pl.getD k []).getD t 'I')
              (BeH2.bitAt N t i) (BeH2.bitAt N t j) := by
  have hne : ∀ s ∈ pl, s ≠ [] := by
    intro s hs hnil
    rw [hnil] at hs
    have := hN [] hs
    simp at this
    omega
  obtain ⟨Hm, h1, h2⟩ := ham_fold (pl.zip ints)
    (by
      intro p hp
      exact hne p.1 (List.of_mem_zip hp).1) matZero
  refine ⟨Hm, h1, ?_⟩
  intro i j hi hj
  rw [h2 i j]
  have hmz : matZero i j = 0 := rfl
  rw [hmz, zero_add]
  have hms := map_zip_sum_eq ([] : List Char) pl ints hlen
    (fun s => BeH2.kronOf (s.map BeH2.charMat) i j)
  rw [hms]
  refine Finset.sum_congr rfl ?_
  intro k hk
  rw [Finset.mem_range] at hk
  have hmem : pl.getD k [] ∈ pl := by
    rw [List.getD_eq_getElem _ _ hk]
    exact List.getElem_mem _
  obtain ⟨c, cs, hcs⟩ : ∃ c cs, pl.getD k [] = c :: cs := by
    cases hp : pl.getD k [] with
    | nil => exact absurd hp (hne _ hmem)
    | cons c cs => exact ⟨c, cs, rfl⟩
  have hNk : (pl.getD k []).length = N := hN _ hmem
  rw [hcs] at hNk
  simp only [List.length_cons] at hNk
  rw [hcs]
  congr 1
  rw [show BeH2.kronOf ((c :: cs).map BeH2.charMat)
      = (cs.map BeH2.charMat).foldl kron2 (BeH2.charMat c) from rfl]
  rw [operatorfromstring_entry c cs i j (by rw [hNk]; exact hi) (by rw [hNk]; exact hj), hNk]

/-- Witness for C4 on the strings `["X"], ["Z"]` with coefficients 2, 3. -/
theorem claim_C4_witness :
    (([['X'], ['Z']] : List (List Char)) ≠ [] ∧
     (∀ s ∈ ([['X'], ['Z']] : List (List Char)), s.length = 1) ∧ 0 < 1 ∧
     ([2, 3] : List ℂ).length = ([['X'], ['Z']] : List (List Char)).length) ∧
    (∃ Hm, BeH2.hamiltonian [['X'], ['Z']] [2, 3] = some Hm ∧
      ∀ i j, i < 2 ^ 1 → j < 2 ^ 1 →
        Hm i j = ∑ k in Finset.range ([['X'], ['Z']] : List (List Char)).length,
          ([2, 3] : List ℂ).getD k 0 * ∏ t in Finset.range 1,
            BeH2.charMat ((([['X'], ['Z']] : List (List Char)).getD k []).getD t 'I')
              (BeH2.bitAt 1 t i) (BeH2.bitAt 1 t j)) :=
  ⟨⟨by decide, by decide, by decide, by decide⟩,
    claim_C4 [['X'], ['Z']] [2, 3] 1 (by decide) (by decide) (by decide) (by decide)⟩

section BuildHamHelpers

/-- The accumulator scan of `OperatorFromString`, over an arbitrary list of
indexed characters and from an arbitrary starting accumulator: it appends
the Pauli matrices and the indices of the non-identity characters. -/
theorem ofs_scan (l : List (ℕ × Char)) (a : List CMat) (b : List ℕ) :
    (l.foldl (fun acc p =>
      if p.2 = 'X' then (acc.1 ++ [BeH2.X], acc.2 ++ [p.1])
      else if p.2 = 'Y' then (acc.1 ++ [BeH2.Y], acc.2 ++ [p.1])
      else if p.2 = 'Z' then (acc.1 ++ [BeH2.Z], acc.2 ++ [p.1])
      else acc) (a, b))
    = (a ++ (l.filterMap fun p =>
        if p.2 = 'X' then some BeH2.X else if p.2 = 'Y' then some BeH2.Y
        else if p.2 = 'Z' then some BeH2.Z else none),
       b ++ (l.filterMap fun p =>
        if p.2 = 'X' then some p.1 else if p.2 = 'Y' then some p.1
        else if p.2 = 'Z' then some p.1 else none)) := by
  induction l generalizing a b with
  | nil => simp
  | cons p l ih =>
    by_cases hX : p.2 = 'X'
    · simp [hX, ih]
    · by_cases hY : p.2 = 'Y'
      · simp [hX, hY, ih]
      · by_cases hZ : p.2 = 'Z'
        · simp [hX, hY, hZ, ih]
        · simp [hX, hY, hZ, ih]

/-- A `filterMap` depending only on the characters is unchanged by
enumeration. -/
theorem enum_filterMap_snd {α : Type _} (s : List Char) (g : Char → Option α) :
    (s.enum.filterMap fun p => g p.2) = s.filterMap g := by
  conv_rhs => rw [← List.enum_map_snd s]
  rw [List.filterMap_map]
  rfl

/-- On a string with at least one `'X'`/`'Y'`/`'Z'`, `OperatorFromString`
succeeds and returns the non-identity sites and the Kronecker product of
their Pauli matrices. -/
theorem OperatorFromString_eq (s : List Char) (hnz : BeH2.xyzMats s ≠ []) :
    BeH2.OperatorFromString s
      = some (BeH2.xyzSites s, BeH2.kronOf (BeH2.xyzMats s)) := by
  unfold BeH2.OperatorFromString
  rw [ofs_scan s.enum [] []]
  have hmats : (s.enum.filterMap fun p =>
      if p.2 = 'X' then some BeH2.X else if p.2 = 'Y' then some BeH2.Y
      else if p.2 = 'Z' then some BeH2.Z else none) = BeH2.xyzMats s :=
    enum_filterMap_snd s fun c =>
      if c = 'X' then some BeH2.X else if c = 'Y' then some BeH2.Y
      else if c = 'Z' then some BeH2.Z else none
  simp only [List.nil_append, hmats]
  cases hms : BeH2.xyzMats s with
  | nil => exact absurd hms hnz
  | cons A rest =>
    simp [kronReduce, BeH2.kronOf, BeH2.xyzSites]

/-- A string containing one of `'X'`, `'Y'`, `'Z'` has a nonempty Pauli
matrix list. -/
theorem xyzMats_ne_nil {s : List Char} (h : ∃ c ∈ s, c = 'X' ∨ c = 'Y' ∨ c = 'Z') :
    BeH2.xyzMats s ≠ [] := by
  intro hnil
  obtain ⟨c, hc, hcx⟩ := h
  have := List.filterMap_eq_nil_iff.1 hnil c hc
  rcases hcx with h | h | h <;> simp [h] at this

/-- The number of sites returned by the scan equals the number of
matrices. -/
theorem xyzSites_length (s : List Char) :
    (BeH2.xyzSites s).length = (BeH2.xyzMats s).length := by
  unfold BeH2.xyzSites BeH2.xyzMats
  rw [← enum_filterMap_snd s fun c =>
    if c = 'X' then some BeH2.X else if c = 'Y' then some BeH2.Y
    else if c = 'Z' then some BeH2.Z else none]
  induction s.enum with
  | nil => rfl
  | cons p l ih =>
    by_cases hX : p.2 = 'X'
    · simp [List.filterMap_cons, hX, ih]
    · by_cases hY : p.2 = 'Y'
      · simp [List.filterMap_cons, hX, hY, ih]
      · by_cases hZ : p.2 = 'Z'
        · simp [List.filterMap_cons, hX, hY, hZ, ih]
        · simp [List.filterMap_cons, hX, hY, hZ, ih]

/-- The `flag` test of `BuildHamiltonian` detects exactly the strings with
a non-identity character (strings of length `N`). -/
theorem flag_iff (N : ℕ) (s : List Char) (hlen : s.length = N) :
    ((List.range N).any fun j => decide (s.getD j ' ' ≠ 'I')) = true
      ↔ ∃ c ∈ s, c ≠ 'I' := by
  rw [List.any_eq_true]
  constructor
  · rintro ⟨j, hj, hne⟩
    rw [List.mem_range] at hj
    rw [decide_eq_true_iff] at hne
    refine ⟨s.getD j ' ', ?_, hne⟩
    rw [List.getD_eq_getElem _ _ (hlen ▸ hj)]
    exact List.getElem_mem _
  · rintro ⟨c, hc, hne⟩
    obtain ⟨j, hj, hcj⟩ := List.mem_iff_getElem.1 hc
    refine ⟨j, ?_, ?_⟩
    · rw [List.mem_range, ← hlen]
      exact hj
    · rw [decide_eq_true_iff, List.getD_eq_getElem _ _ hj, hcj]
      exact hne

/-- On valid Pauli strings, a non-identity character is an `'X'`, `'Y'` or
`'Z'`. -/
theorem nonI_iff_xyz {s : List Char}
    (hchars : ∀ c ∈ s, c = 'I' ∨ c = 'X' ∨ c = 'Y' ∨ c = 'Z') :
    (∃ c ∈ s, c ≠ 'I') ↔ ∃ c ∈ s, c = 'X' ∨ c = 'Y' ∨ c = 'Z' := by
  constructor
  · rintro ⟨c, hc, hne⟩
    rcases hchars c hc with h | h | h | h
    · exact absurd h hne
    · exact ⟨c, hc, Or.inl h⟩
    · exact ⟨c, hc, Or.inr (Or.inl h)⟩
    · exact ⟨c, hc, Or.inr (Or.inr h)⟩
  · rintro ⟨c, hc, hx⟩
    refine ⟨c, hc, ?_⟩
    rintro rfl
    rcases hx with h | h | h <;> exact absurd h (by decide)

/-- The accumulating fold of `BuildHamiltonian` on valid Pauli strings of
length `N`: it succeeds and appends exactly the spec's term for each
string/coefficient pair. -/
theorem build_fold (N : ℕ) (L : List (List Char × ℂ))
    (hgood : ∀ p ∈ L, p.1.length = N ∧
      ∀ c ∈ p.1, c = 'I' ∨ c = 'X' ∨ c = 'Y' ∨ c = 'Z') :
    ∀ acc : NKOp,
      (L.foldlM (fun acc p =>
        if (List.range N).any (fun j => decide (p.1.getD j ' ' ≠ 'I')) then
          (BeH2.OperatorFromString p.1).map fun so =>
            acc ++ [NKTerm.sited so.1 (matSMul p.2 so.2)]
        else some (acc ++ [NKTerm.const p.2.re]))
        acc)
      = some (acc ++ L.map BeH2.specTerm) := by
  induction L with
  | nil => intro acc; simp
  | cons p L ih =>
    intro acc
    rw [List.foldlM_cons]
    obtain ⟨hplen, hchars⟩ := hgood p (List.mem_cons_self p L)
    have ihtail := ih fun q hq => hgood q (List.mem_cons_of_mem p hq)
    by_cases hflag : ((List.range N).any fun j => decide (p.1.getD j ' ' ≠ 'I')) = true
    · have hxyz : ∃ c ∈ p.1, c = 'X' ∨ c = 'Y' ∨ c = 'Z' :=
        (nonI_iff_xyz hchars).1 ((flag_iff N p.1 hplen).1 hflag)
      have hne := xyzMats_ne_nil hxyz
      have hnall : ¬(p.1.all fun c => c = 'I') = true := by
        rw [List.all_eq_true]
        intro hall
        obtain ⟨c, hc, hcx⟩ := hxyz
        have hcI := hall c hc
        rw [decide_eq_true_iff] at hcI
        rcases hcx with h | h | h <;> (rw [hcI] at h; exact absurd h (by decide))
      have hterm : BeH2.specTerm p
          = NKTerm.sited (BeH2.xyzSites p.1)
              (matSMul p.2 (BeH2.kronOf (BeH2.xyzMats p.1))) := by
        rw [BeH2.specTerm, if_neg hnall]
      rw [if_pos hflag, OperatorFromString_eq p.1 hne]
      have htail := ihtail (acc ++ [NKTerm.sited (BeH2.xyzSites p.1)
        (matSMul p.2 (BeH2.kronOf (BeH2.xyzMats p.1)))])
      refine htail.trans ?_
      rw [List.map_cons, hterm]
      simp
    · have hall : (p.1.all fun c => c = 'I') = true := by
        rw [List.all_eq_true]
        intro c hc
        rw [decide_eq_true_iff]
        by_contra hne2
        exact hflag ((flag_iff N p.1 hplen).2 ⟨c, hc, hne2⟩)
      have hterm : BeH2.specTerm p = NKTerm.const p.2.re := by
        rw [BeH2.specTerm, if_pos hall]
      rw [if_neg hflag]
      have htail := ihtail (acc ++ [NKTerm.const p.2.re])
      refine htail.trans ?_
      rw [List.map_cons, hterm]
      simp

end BuildHamHelpers

/-- C3: on equal-length lists of `N`-character Pauli strings and
coefficients, `BuildHamiltonian` returns (after the starting
`LocalOperator(hilbert, 0.0)`) one term per string: the real part of the
coefficient for an all-`'I'` string, and otherwise the coefficient times
the Kronecker product of the Pauli matrices at the non-`'I'` positions,
acting on exactly those sites. -/
theorem claim_C3 (N : ℕ) (pl : List (List Char)) (ints : List ℂ)
    (hN : ∀ s ∈ pl, s.length = N)
    (hchars : ∀ s ∈ pl, ∀ c ∈ s, c = 'I' ∨ c = 'X' ∨ c = 'Y' ∨ c = 'Z')
    (hlen : ints.length = pl.length) :
    BeH2.BuildHamiltonian N pl ints
      = some (NKTerm.const 0 :: (pl.zip ints).map BeH2.specTerm) := by
  unfold BeH2.BuildHamiltonian
  have hb := build_fold N (pl.zip ints)
    (fun p hp => ⟨hN p.1 (List.of_mem_zip hp).1, hchars p.1 (List.of_mem_zip hp).1⟩)
    [NKTerm.const 0]
  rw [hb]
  rfl

/-- Witness for C3 on `pauli = ["I", "X"]`, `interactions = [2, 3]`,
`N = 1`. -/
theorem claim_C3_witness :
    ((∀ s ∈ ([['I'], ['X']] : List (List Char)), s.length = 1) ∧
     (∀ s ∈ ([['I'], ['X']] : List (List Char)), ∀ c ∈ s,
        c = 'I' ∨ c = 'X' ∨ c = 'Y' ∨ c = 'Z') ∧
     ([2, 3] : List ℂ).length = ([['I'], ['X']] : List (List Char)).length) ∧
    BeH2.BuildHamiltonian 1 [['I'], ['X']] [2, 3]
      = some (NKTerm.const 0 ::
          (([['I'], ['X']] : List (List Char)).zip ([2, 3] : List ℂ)).map BeH2.specTerm) :=
  ⟨⟨by decide, by decide, by decide⟩,
    claim_C3 1 [['I'], ['X']] [2, 3] (by decide) (by decide) (by decide)⟩

/-- C10: under the same validity assumptions, the `flag` check routes to
`OperatorFromString` only strings containing an `'X'`, `'Y'` or `'Z'`; on
such strings the operator list is nonempty, so the `reduce(np.kron, …)`
fold is well-defined and returns the sites of the non-identity characters
with one 2×2 factor per site; consequently `BuildHamiltonian` never hits
the empty-fold error branch. -/
theorem claim_C10 (N : ℕ) (pl : List (List Char)) (ints : List ℂ)
    (hN : ∀ s ∈ pl, s.length = N)
    (hchars : ∀ s ∈ pl, ∀ c ∈ s, c = 'I' ∨ c = 'X' ∨ c = 'Y' ∨ c = 'Z')
    (hlen : ints.length = pl.length) :
    (∀ s ∈ pl, ((List.range N).any fun j => decide (s.getD j ' ' ≠ 'I')) = true →
        ∃ c ∈ s, c = 'X' ∨ c = 'Y' ∨ c = 'Z') ∧
    (∀ s ∈ pl, (∃ c ∈ s, c = 'X' ∨ c = 'Y' ∨ c = 'Z') →
        BeH2.xyzMats s ≠ [] ∧
        BeH2.OperatorFromString s
          = some (BeH2.xyzSites s, BeH2.kronOf (BeH2.xyzMats s)) ∧
        (BeH2.xyzSites s).length = (BeH2.xyzMats s).length) ∧
    (∃ Hm, BeH2.BuildHamiltonian N pl ints = some Hm) := by
  refine ⟨?_, ?_, ?_⟩
  · intro s hs hflag
    exact (nonI_iff_xyz (hchars s hs)).1 ((flag_iff N s (hN s hs)).1 hflag)
  · intro s _ hxyz
    have hne := xyzMats_ne_nil hxyz
    exact ⟨hne, OperatorFromString_eq s hne, xyzSites_length s⟩
  · refine ⟨NKTerm.const 0 :: (pl.zip ints).map BeH2.specTerm, ?_⟩
    unfold BeH2.BuildHamiltonian
    have hb := build_fold N (pl.zip ints)
      (fun p hp => ⟨hN p.1 (List.of_mem_zip hp).1, hchars p.1 (List.of_mem_zip hp).1⟩)
      [NKTerm.const 0]
    rw [hb]
    rfl

/-- Witness for C10 on `pauli = ["Y"]`, `interactions = [5]`, `N = 1`. -/
theorem claim_C10_witness :
    ((∀ s ∈ ([['Y']] : List (List Char)), s.length = 1) ∧
     (∀ s ∈ ([['Y']] : List (List Char)), ∀ c ∈ s,
        c = 'I' ∨ c = 'X' ∨ c = 'Y' ∨ c = 'Z') ∧
     ([5] : List ℂ).length = ([['Y']] : List (List Char)).length) ∧
    ((∀ s ∈ ([['Y']] : List (List Char)),
        ((List.range 1).any fun j => decide (s.getD j ' ' ≠ 'I')) = true →
        ∃ c ∈ s, c = 'X' ∨ c = 'Y' ∨ c = 'Z') ∧
    (∀ s ∈ ([['Y']] : List (List Char)), (∃ c ∈ s, c = 'X' ∨ c = 'Y' ∨ c = 'Z') →
        BeH2.xyzMats s ≠ [] ∧
        BeH2.OperatorFromString s
          = some (BeH2.xyzSites s, BeH2.kronOf (BeH2.xyzMats s)) ∧
        (BeH2.xyzSites s).length = (BeH2.xyzMats s).length) ∧
    (∃ Hm, BeH2.BuildHamiltonian 1 [['Y']] [5] = some Hm)) :=
  ⟨⟨by decide, by decide, by decide⟩,
    claim_C10 1 [['Y']] [5] (by decide) (by decide) (by decide)⟩

section LatticeHelpers

/-- A site with in-range coordinates is an in-range index. -/
theorem coord_lt {Lx Ly x y : ℕ} (hx : x < Lx) (hy : y < Ly) :
    VMC.coord_to_site Ly x y < Lx * Ly := by
  unfold VMC.coord_to_site
  calc Ly * x + y < Ly * x + Ly := by omega
    _ = Ly * (x + 1) := by ring
    _ ≤ Ly * Lx := Nat.mul_le_mul_left Ly hx
    _ = Lx * Ly := Nat.mul_comm Ly Lx

/-- `coord_to_site` is injective on in-range `y` coordinates. -/
theorem coord_inj {Ly x1 y1 x2 y2 : ℕ} (h1 : y1 < Ly) (h2 : y2 < Ly)
    (h : VMC.coord_to_site Ly x1 y1 = VMC.coord_to_site Ly x2 y2) :
    x1 = x2 ∧ y1 = y2 := by
  unfold VMC.coord_to_site at h
  have hy : y1 = y2 := by
    have hmod := congrArg (· % Ly) h
    simpa [Nat.mul_add_mod, Nat.mod_eq_of_lt h1, Nat.mod_eq_of_lt h2] using hmod
  subst hy
  refine ⟨?_, rfl⟩
  have hcancel : Ly * x1 = Ly * x2 := Nat.add_right_cancel h
  exact Nat.eq_of_mul_eq_mul_left (lt_of_le_of_lt (Nat.zero_le y1) h1) hcancel

/-- Length of a `flatMap` over `range` whose blocks all have length `m`. -/
theorem length_flatMap_const {α : Type _} (n m : ℕ) (f : ℕ → List α)
    (h : ∀ x, (f x).length = m) :
    ((List.range n).flatMap f).length = n * m := by
  rw [List.length_flatMap]
  have hrep : List.map (List.length ∘ f) (List.range n) = List.replicate n m := by
    refine List.eq_replicate_iff.2 ⟨by simp, ?_⟩
    intro b hb
    simp only [List.mem_map, Function.comp] at hb
    obtain ⟨x, _, hx⟩ := hb
    simp [← hx, h x]
  rw [hrep, List.sum_replicate, smul_eq_mul]

/-- The two notebooks build identical bond lists. -/
theorem buildlattice_eq (Lx Ly : ℕ) :
    QST.buildlattice Lx Ly = VMC.buildlattice Lx Ly := rfl

end LatticeHelpers

/-- C8: every bond produced by `buildlattice` (identical in both notebooks)
joins two distinct sites in `[0, Lx*Ly)`, and the three lists have lengths
`Lx(Ly-1) + Ly(Lx-1)`, `2(Lx-1)(Ly-1)` and `Ly·(Lx-2) + Lx·(Ly-2)`
(truncated subtraction realises `max(·-k, 0)`). -/
theorem claim_C8 (Lx Ly : ℕ) (hx : 1 ≤ Lx) (hy : 1 ≤ Ly) :
    (∀ p ∈ VMC.nnList Lx Ly ++ VMC.nnnList Lx Ly ++ VMC.nnnnList Lx Ly,
      p.1 ≠ p.2 ∧ p.1 < Lx * Ly ∧ p.2 < Lx * Ly) ∧
    QST.buildlattice Lx Ly = VMC.buildlattice Lx Ly ∧
    (VMC.nnList Lx Ly).length = Lx * (Ly - 1) + Ly * (Lx - 1) ∧
    (VMC.nnnList Lx Ly).length = 2 * (Lx - 1) * (Ly - 1) ∧
    (VMC.nnnnList Lx Ly).length = Ly * (Lx - 2) + Lx * (Ly - 2) := by
  refine ⟨?_, buildlattice_eq Lx Ly, ?_, ?_, ?_⟩
  · intro p hp
    simp only [VMC.nnList, VMC.nnnList, VMC.nnnnList, List.mem_append,
      List.mem_flatMap, List.mem_map, List.mem_range, List.mem_cons,
      List.mem_singleton, List.not_mem_nil, or_false] at hp
    rcases hp with ((⟨x, hxr, y, hyr, hpe⟩ | ⟨y, hyr, x, hxr, hpe⟩) |
        ⟨y, hyr, x, hxr, (hpe | hpe)⟩) |
        (⟨y, hyr, x, hxr, hpe⟩ | ⟨y, hyr, x, hxr, hpe⟩)
    · subst hpe
      refine ⟨fun heq => ?_, coord_lt hxr (by omega), coord_lt hxr (by omega)⟩
      have := coord_inj (by omega) (by omega) heq
      omega
    · subst hpe
      refine ⟨fun heq => ?_, coord_lt (by omega) hyr, coord_lt (by omega) hyr⟩
      have := coord_inj hyr hyr heq
      omega
    · subst hpe
      refine ⟨fun heq => ?_, coord_lt (by omega) (by omega),
        coord_lt (by omega) (by omega)⟩
      have := coord_inj (by omega) (by omega) heq
      omega
    · subst hpe
      refine ⟨fun heq => ?_, coord_lt (by omega) (by omega),
        coord_lt (by omega) (by omega)⟩
      have := coord_inj (by omega) (by omega) heq
      omega
    · subst hpe
      refine ⟨fun heq => ?_, coord_lt (by omega) hyr, coord_lt (by omega) hyr⟩
      have := coord_inj hyr hyr heq
      omega
    · subst hpe
      refine ⟨fun heq => ?_, coord_lt hxr (by omega), coord_lt hxr (by omega)⟩
      have := coord_inj (by omega) (by omega) heq
      omega
  · rw [VMC.nnList, List.length_append,
      length_flatMap_const Lx (Ly - 1) _ (fun x => by simp),
      length_flatMap_const Ly (Lx - 1) _ (fun y => by simp)]
  · have hinner : ∀ y, ((List.range (Lx - 1)).flatMap fun x =>
        [(VMC.coord_to_site Ly x y, VMC.coord_to_site Ly (x + 1) (y + 1)),
         (VMC.coord_to_site Ly (x + 1) y, VMC.coord_to_site Ly x (y + 1))]).length
        = (Lx - 1) * 2 :=
      fun y => length_flatMap_const (Lx - 1) 2 _ fun x => rfl
    rw [VMC.nnnList, length_flatMap_const (Ly - 1) ((Lx - 1) * 2) _ hinner]
    ring
  · rw [VMC.nnnnList, List.length_append,
      length_flatMap_const Ly (Lx - 2) _ (fun y => by simp),
      length_flatMap_const (Ly - 2) Lx _ (fun y => by simp)]
    ring

/-- Witness for C8 on the 2×2 lattice. -/
theorem claim_C8_witness :
    (1 ≤ 2 ∧ 1 ≤ 2) ∧
    ((∀ p ∈ VMC.nnList 2 2 ++ VMC.nnnList 2 2 ++ VMC.nnnnList 2 2,
      p.1 ≠ p.2 ∧ p.1 < 2 * 2 ∧ p.2 < 2 * 2) ∧
    QST.buildlattice 2 2 = VMC.buildlattice 2 2 ∧
    (VMC.nnList 2 2).length = 2 * (2 - 1) + 2 * (2 - 1) ∧
    (VMC.nnnList 2 2).length = 2 * (2 - 1) * (2 - 1) ∧
    (VMC.nnnnList 2 2).length = 2 * (2 - 2) + 2 * (2 - 2)) :=
  ⟨⟨by decide, by decide⟩, claim_C8 2 2 (by decide) (by decide)⟩

section DiagHelpers

/-- `bitsIdx` of a single bit. -/
theorem bitsIdx_one (d : ℕ) : bitsIdx [d] = d := by
  simp [bitsIdx]

/-- `bitsIdx` of two bits. -/
theorem bitsIdx_two (a b : ℕ) : bitsIdx [a, b] = 2 * a + b := by
  simp [bitsIdx]

/-- `sx` has a vanishing diagonal. -/
theorem sx_diag (d : ℕ) : QST.sx d d = 0 := by
  unfold QST.sx mat2
  by_cases h0 : d = 0
  · simp [h0]
  · by_cases h1 : d = 1 <;> simp [h0, h1]

/-- The diagonal of the occupation projector `P` is the occupation value
(for 0/1 values). -/
theorem P_diag (d : ℕ) (hd : d ≤ 1) : QST.P d d = ((d : ℕ) : ℂ) := by
  unfold QST.P mat2
  interval_cases d <;> simp

/-- The diagonal of `PP = kron(P, P)` at the two-bit index is the product
of the occupations. -/
theorem PP_diag (d1 d2 : ℕ) (h1 : d1 ≤ 1) (h2 : d2 ≤ 1) :
    QST.PP (2 * d1 + d2) (2 * d1 + d2) = ((d1 * d2 : ℕ) : ℂ) := by
  unfold QST.PP kron2
  interval_cases d1 <;> interval_cases d2 <;>
    simp [QST.P, mat2]

/-- Casting a real list sum to `ℂ`. -/
theorem ofReal_listSum (l : List ℝ) :
    ((l.sum : ℝ) : ℂ) = (l.map fun x => ((x : ℝ) : ℂ)).sum := by
  induction l with
  | nil => simp
  | cons x xs ih => simp [ih]

/-- `localenergy` at `Ω = 0` is the diagonal (classical) part of the
Rydberg energy. -/
theorem localenergy_omega_zero (Lx Ly : ℕ) (V delta : ℝ) (Lψ : List ℕ → ℝ)
    (σ : List ℕ) (lp : ℝ) :
    VMC.localenergy ⟨Lx, Ly, V, 0, delta, Lψ⟩ σ lp
      = (((List.range (Lx * Ly)).map fun j =>
          -delta * ((σ.getD j 0 : ℕ) : ℝ)).sum
        + ((VMC.nnList Lx Ly).map fun b =>
          V * ((σ.getD b.1 0 * σ.getD b.2 0 : ℕ) : ℝ)).sum)
        + ((VMC.nnnList Lx Ly).map fun b =>
          V / 8 * ((σ.getD b.1 0 * σ.getD b.2 0 : ℕ) : ℝ)).sum
        + ((VMC.nnnnList Lx Ly).map fun b =>
          V / 64 * ((σ.getD b.1 0 * σ.getD b.2 0 : ℕ) : ℝ)).sum := by
  unfold VMC.localenergy
  simp only [foldl_add_eq_sum]
  have hz : ((List.range (VMC.Model.N ⟨Lx, Ly, V, 0, delta, Lψ⟩)).map fun j =>
      -0.5 * (VMC.Model.Omega ⟨Lx, Ly, V, 0, delta, Lψ⟩) *
        Real.exp ((VMC.Model.logpsiFn ⟨Lx, Ly, V, 0, delta, Lψ⟩) (VMC.flipAt σ j) - lp)).sum
      = 0 := by
    apply List.sum_eq_zero
    intro x hx
    simp only [List.mem_map] at hx
    obtain ⟨j, _, hj⟩ := hx
    rw [← hj]
    show -0.5 * (0 : ℝ) * _ = 0
    ring
  rw [show VMC.Model.N ⟨Lx, Ly, V, 0, delta, Lψ⟩ = Lx * Ly from rfl] at hz ⊢
  rw [hz]
  show (0 : ℝ) + _ + _ + _ + _ + 0 = _
  ring

/-- The diagonal matrix element of `generatehamiltonian`: the transverse
field vanishes on the diagonal and the remaining terms contribute the
classical Rydberg energy. -/
theorem diag_genham (Lx Ly : ℕ) (V Omega delta : ℝ) (σ : List ℕ)
    (hσ : ∀ j, σ.getD j 0 ≤ 1) :
    diagElem (QST.generatehamiltonian Lx Ly V Omega delta) σ
      = (((List.range (Lx * Ly)).map fun j =>
          ((-delta * ((σ.getD j 0 : ℕ) : ℝ) : ℝ) : ℂ)).sum
        + ((VMC.nnList Lx Ly).map fun b =>
          ((V * ((σ.getD b.1 0 * σ.getD b.2 0 : ℕ) : ℝ) : ℝ) : ℂ)).sum)
        + ((VMC.nnnList Lx Ly).map fun b =>
          ((V / 8 * ((σ.getD b.1 0 * σ.getD b.2 0 : ℕ) : ℝ) : ℝ) : ℂ)).sum
        + ((VMC.nnnnList Lx Ly).map fun b =>
          ((V / 64 * ((σ.getD b.1 0 * σ.getD b.2 0 : ℕ) : ℝ) : ℝ) : ℂ)).sum := by
  unfold QST.generatehamiltonian diagElem
  rw [buildlattice_eq]
  simp only [VMC.buildlattice, List.map_append, List.sum_append, List.map_map]
  have hsx : ((List.range (Lx * Ly)).map ((diagTerm σ) ∘ fun j =>
      NKTerm.sited [j] (matSMul ((-0.5 * Omega : ℝ) : ℂ) QST.sx))).sum = 0 := by
    apply List.sum_eq_zero
    intro x hx
    simp only [List.mem_map, Function.comp] at hx
    obtain ⟨j, _, hj⟩ := hx
    rw [← hj]
    simp [diagTerm, matSMul, bitsIdx_one, sx_diag]
  have hP : ∀ j : ℕ, (diagTerm σ ∘ fun j =>
      NKTerm.sited [j] (matSMul ((-delta : ℝ) : ℂ) QST.P)) j
      = ((-delta * ((σ.getD j 0 : ℕ) : ℝ) : ℝ) : ℂ) := by
    intro j
    simp only [Function.comp, diagTerm, List.map_cons, List.map_nil, bitsIdx_one,
      matSMul]
    rw [P_diag _ (hσ j)]
    push_cast
    ring
  have hPP : ∀ (c : ℝ) (b : ℕ × ℕ), (diagTerm σ ∘ fun bond =>
      NKTerm.sited [bond.1, bond.2] (matSMul ((c : ℝ) : ℂ) QST.PP)) b
      = ((c * ((σ.getD b.1 0 * σ.getD b.2 0 : ℕ) : ℝ) : ℝ) : ℂ) := by
    intro c b
    simp only [Function.comp, diagTerm, List.map_cons, List.map_nil, bitsIdx_two,
      matSMul]
    rw [PP_diag _ _ (hσ b.1) (hσ b.2)]
    push_cast
    ring
  rw [hsx, List.map_congr_left fun j _ => hP j,
    List.map_congr_left fun b _ => hPP V b,
    List.map_congr_left fun b _ => hPP (V / 8) b,
    List.map_congr_left fun b _ => hPP (V / 64) b]
  ring

end DiagHelpers

/-- C5: the two notebooks encode the same Rydberg Hamiltonian: their
`buildlattice` functions return identical bond lists, and the diagonal
matrix elements of `generatehamiltonian` (chemical potential `-δ` per
occupied site and `P⊗P` interactions weighted `V`, `V/8`, `V/64` on the
`nn`/`nnn`/`nnnn` bonds) equal the diagonal part of `localenergy`
(`localenergy` with the off-diagonal Rabi term switched off, `Ω = 0`) on
every occupation configuration. -/
theorem claim_C5 (Lx Ly : ℕ) (V Omega delta : ℝ) (Lψ : List ℕ → ℝ)
    (σ : List ℕ) (lp : ℝ) (hlen : σ.length = Lx * Ly)
    (h01 : ∀ x ∈ σ, x ≤ 1) :
    QST.buildlattice Lx Ly = VMC.buildlattice Lx Ly ∧
    diagElem (QST.generatehamiltonian Lx Ly V Omega delta) σ
      = ((VMC.localenergy ⟨Lx, Ly, V, 0, delta, Lψ⟩ σ lp : ℝ) : ℂ) := by
  refine ⟨buildlattice_eq Lx Ly, ?_⟩
  have hσ : ∀ j, σ.getD j 0 ≤ 1 := by
    intro j
    by_cases hj : j < σ.length
    · refine h01 _ ?_
      rw [List.getD_eq_getElem _ _ hj]
      exact List.getElem_mem _
    · rw [List.getD_eq_default _ _ (le_of_not_lt hj)]
      exact Nat.zero_le 1
  rw [localenergy_omega_zero, diag_genham Lx Ly V Omega delta σ hσ]
  rw [Complex.ofReal_add, Complex.ofReal_add, Complex.ofReal_add,
    ofReal_listSum, ofReal_listSum, ofReal_listSum, ofReal_listSum]
  simp only [List.map_map]
  rfl

/-- Witness for C5 on the 2×1 lattice with configuration `[1, 0]`. -/
theorem claim_C5_witness :
    (([1, 0] : List ℕ).length = 2 * 1 ∧ ∀ x ∈ ([1, 0] : List ℕ), x ≤ 1) ∧
    (QST.buildlattice 2 1 = VMC.buildlattice 2 1 ∧
    diagElem (QST.generatehamiltonian 2 1 7 1 1) [1, 0]
      = ((VMC.localenergy ⟨2, 1, 7, 0, 1, fun _ => 0⟩ [1, 0] 0 : ℝ) : ℂ)) :=
  ⟨⟨by decide, by decide⟩,
    claim_C5 2 1 7 1 1 (fun _ => 0) [1, 0] 0 (by decide) (by decide)⟩

section LexHelpers

/-- Unfolding `lexLe` on two nonempty lists. -/
theorem lexLe_cons (a b : Char) (as bs : List Char) :
    BeH2.lexLe (a :: as) (b :: bs)
      = if a < b then true else if b < a then false else BeH2.lexLe as bs := rfl

/-- `lexLe` is reflexive. -/
theorem lexLe_refl (l : List Char) : BeH2.lexLe l l = true := by
  induction l with
  | nil => rfl
  | cons a as ih => rw [lexLe_cons, if_neg (lt_irrefl a), if_neg (lt_irrefl a)]; exact ih

/-- `lexLe` is total. -/
theorem lexLe_total (l1 l2 : List Char) :
    BeH2.lexLe l1 l2 = true ∨ BeH2.lexLe l2 l1 = true := by
  induction l1 generalizing l2 with
  | nil => left; rfl
  | cons a as ih =>
    cases l2 with
    | nil => right; rfl
    | cons b bs =>
      rcases lt_trichotomy a b with h | h | h
      · left; rw [lexLe_cons, if_pos h]
      · subst h
        rcases ih bs with h2 | h2
        · left; rw [lexLe_cons, if_neg (lt_irrefl a), if_neg (lt_irrefl a)]; exact h2
        · right; rw [lexLe_cons, if_neg (lt_irrefl a), if_neg (lt_irrefl a)]; exact h2
      · right; rw [lexLe_cons, if_pos h]

/-- `lexLe` is transitive. -/
theorem lexLe_trans {l1 l2 l3 : List Char} (h12 : BeH2.lexLe l1 l2 = true)
    (h23 : BeH2.lexLe l2 l3 = true) : BeH2.lexLe l1 l3 = true := by
  induction l1 generalizing l2 l3 with
  | nil => rfl
  | cons a as ih =>
    cases l2 with
    | nil => simp [BeH2.lexLe] at h12
    | cons b bs =>
      cases l3 with
      | nil => simp [BeH2.lexLe] at h23
      | cons c cs =>
        rw [lexLe_cons] at h12 h23 ⊢
        by_cases hab : a < b
        · by_cases hbc : b < c
          · rw [if_pos (lt_trans hab hbc)]
          · by_cases hcb : c < b
            · rw [if_neg hbc, if_pos hcb] at h23
              exact absurd h23 (by simp)
            · have hbc' : b = c := le_antisymm (not_lt.1 hcb) (not_lt.1 hbc)
              subst hbc'
              rw [if_pos hab]
        · by_cases hba : b < a
          · rw [if_neg hab, if_pos hba] at h12
            exact absurd h12 (by simp)
          · have hab' : a = b := le_antisymm (not_lt.1 hba) (not_lt.1 hab)
            subst hab'
            rw [if_neg hab, if_neg hba] at h12
            by_cases hac : a < c
            · rw [if_pos hac]
            · by_cases hca : c < a
              · rw [if_neg hac, if_pos hca] at h23
                exact absurd h23 (by simp)
              · rw [if_neg hac, if_neg hca] at h23 ⊢
                exact ih h12 h23

/-- `lexLe` is antisymmetric. -/
theorem lexLe_antisymm {l1 l2 : List Char} (h12 : BeH2.lexLe l1 l2 = true)
    (h21 : BeH2.lexLe l2 l1 = true) : l1 = l2 := by
  induction l1 generalizing l2 with
  | nil =>
    cases l2 with
    | nil => rfl
    | cons b bs => simp [BeH2.lexLe] at h21
  | cons a as ih =>
    cases l2 with
    | nil => simp [BeH2.lexLe] at h12
    | cons b bs =>
      rw [lexLe_cons] at h12 h21
      by_cases hab : a < b
      · rw [if_neg (lt_asymm hab), if_pos hab] at h21
        exact absurd h21 (by simp)
      · by_cases hba : b < a
        · rw [if_neg hab, if_pos hba] at h12
          exact absurd h12 (by simp)
        · have hab' : a = b := le_antisymm (not_lt.1 hba) (not_lt.1 hab)
          subst hab'
          rw [if_neg hab, if_neg hba] at h12
          rw [if_neg hba, if_neg hab] at h21
          exact congrArg (List.cons a) (ih h12 h21)

end LexHelpers

section RotForHelpers

/-- A fold over `range b.length` that reads `b.getD j` equals the fold
over the enumeration of `b` (with site offset `k`). -/
theorem range_fold_enumFrom {α : Type _} (b : List Char) (F : α → ℕ → Char → α) :
    ∀ (k : ℕ) (acc : α),
      (List.range b.length).foldl (fun acc j => F acc (k + j) (b.getD j ' ')) acc
      = (List.enumFrom k b).foldl (fun acc p => F acc p.1 p.2) acc := by
  induction b with
  | nil => intro k acc; rfl
  | cons c cs ih =>
    intro k acc
    rw [List.length_cons, List.range_succ_eq_map, List.foldl_cons, List.foldl_map,
      show List.enumFrom k (c :: cs) = (k, c) :: List.enumFrom (k + 1) cs from rfl,
      List.foldl_cons]
    simp only [List.getD_cons_succ, List.getD_cons_zero, Nat.add_zero]
    have hfun : (fun (x : α) (y : ℕ) => F x (k + Nat.succ y) (cs.getD y ' '))
        = fun x y => F x (k + 1 + y) (cs.getD y ' ') := by
      funext x y
      rw [show k + Nat.succ y = k + 1 + y from by omega]
    rw [hfun]
    exact ih (k + 1) (F acc k c)

/-- The pair-scanning step of the rotation builder, as a `filterMap`. -/
theorem rot_pairs_fold (l : List (ℕ × Char)) :
    ∀ acc : BeH2.RotOp,
      l.foldl (fun acc p =>
        let acc1 := if p.2 = 'X' then acc ++ [(p.1, BeH2.rotationX)] else acc
        if p.2 = 'Y' then acc1 ++ [(p.1, BeH2.rotationY)] else acc1) acc
      = acc ++ l.filterMap fun p =>
          if p.2 = 'X' then some (p.1, BeH2.rotationX)
          else if p.2 = 'Y' then some (p.1, BeH2.rotationY) else none := by
  induction l with
  | nil => intro acc; simp
  | cons p l ih =>
    intro acc
    rw [List.foldl_cons, List.filterMap_cons]
    by_cases hX : p.2 = 'X'
    · have hXY : ¬p.2 = 'Y' := by rw [hX]; decide
      simp only [if_pos hX, if_neg hXY, ih]
      simp
    · by_cases hY : p.2 = 'Y'
      · simp only [if_neg hX, if_pos hY, ih]
        simp
      · simp only [if_neg hX, if_neg hY, ih]

/-- The rotation built by `LoadData` for a basis string of length `N` is
exactly the spec's product of `rotationX`/`rotationY` factors at the
`'X'`/`'Y'` positions. -/
theorem rotFor_eq_rotSpec (N : ℕ) (b : List Char) (hb : b.length = N) :
    BeH2.rotFor N b = BeH2.rotSpec b := by
  subst hb
  have haux := range_fold_enumFrom b (fun acc i c =>
    let acc1 := if c = 'X' then acc ++ [(i, BeH2.rotationX)] else acc
    if c = 'Y' then acc1 ++ [(i, BeH2.rotationY)] else acc1) 0 []
  simp only [Nat.zero_add] at haux
  unfold BeH2.rotFor BeH2.rotSpec
  rw [haux, show b.enum = List.enumFrom 0 b from rfl]
  exact rot_pairs_fold (List.enumFrom 0 b) []

end RotForHelpers

section LoadDataHelpers

/-- `getD` on an append, inside the left part. -/
theorem getD_append_left' {α : Type _} (l1 l2 : List α) (j : ℕ) (d : α)
    (h : j < l1.length) :
    (l1 ++ l2).getD j d = l1.getD j d := by
  rw [List.getD_eq_getElem _ _ (by rw [List.length_append]; omega),
    List.getD_eq_getElem _ _ h]
  exact List.getElem_append_left h

/-- `getD` on an append, at the junction index. -/
theorem getD_append_mid {α : Type _} (l1 : List α) (x : α) (l2 : List α) (d : α) :
    (l1 ++ x :: l2).getD l1.length d = x := by
  rw [List.getD_eq_getElem _ _ (by rw [List.length_append]; simp)]
  rw [List.getElem_append_right (le_refl l1.length)]
  simp

/-- `getD` at the last position recovers `getLast?`. -/
theorem getLast_getD {α : Type _} (l : List α) (x : α) (d : α)
    (h : l.getLast? = some x) :
    l.getD (l.length - 1) d = x := by
  have hlen : 0 < l.length := by
    cases l with
    | nil => simp at h
    | cons a l => simp
  have h2 := List.getLast?_eq_getElem? l
  rw [h, List.getElem?_eq_getElem (show l.length - 1 < l.length by omega)] at h2
  rw [List.getD_eq_getElem _ _ (by omega)]
  exact (Option.some_inj.1 h2).symm

/-- Mapping `getD` over the index range reproduces the list. -/
theorem map_getD_range {α : Type _} (l : List α) (d : α) :
    (List.range l.length).map (fun k => l.getD k d) = l := by
  apply List.ext_getElem
  · simp
  · intro i h1 h2
    rw [List.getElem_map, List.getElem_range]
    exact List.getD_eq_getElem l d h2

/-- The rotation-building loop of `LoadData`, run over a sorted list of
nonempty basis strings from a well-formed state: it appends one rotation
per new group of equal strings and, for every processed string, the index
of its group's rotation. -/
theorem rotLoop_fold (N : ℕ) (r : List (List Char)) :
    ∀ (tmp : List Char) (us : List (List Char)) (tb : List ℤ),
    r.Pairwise (fun a b => BeH2.lexLe a b = true) →
    (∀ b ∈ r, BeH2.lexLe tmp b = true) →
    (∀ b ∈ r, b ≠ []) →
    (us = [] → tmp = []) →
    (us ≠ [] → us.getLast? = some tmp) →
    (∀ u ∈ us, BeH2.lexLe u tmp = true) →
    us.Pairwise (fun a b => BeH2.lexLe a b = true ∧ a ≠ b) →
    ∃ (tmp' : List Char) (bIdx' : ℤ) (ext : List (List Char)) (newtb : List ℤ),
      r.foldl (BeH2.rotLoopStep N)
          (tmp, (us.length : ℤ) - 1, us.map (BeH2.rotFor N), tb)
        = (tmp', bIdx', (us ++ ext).map (BeH2.rotFor N), tb ++ newtb) ∧
      (us ++ ext).Pairwise (fun a b => BeH2.lexLe a b = true ∧ a ≠ b) ∧
      (∀ v ∈ ext, v ∈ r) ∧
      newtb.length = r.length ∧
      (∀ i, i < r.length → ∃ j : ℕ, newtb.getD i 0 = (j : ℤ) ∧
        j < (us ++ ext).length ∧ (us ++ ext).getD j [] = r.getD i []) := by
  induction r with
  | nil =>
    intro tmp us tb _ _ _ _ _ _ hpw
    exact ⟨tmp, (us.length : ℤ) - 1, [], [], by simp, by simpa using hpw, by simp,
      rfl, fun i hi => absurd hi (by simp)⟩
  | cons b rest ih =>
    intro tmp us tb hsort hlow hne hemp hlast hub hpw
    rw [List.foldl_cons]
    have hsort' := (List.pairwise_cons.1 hsort).2
    have hhead := (List.pairwise_cons.1 hsort).1
    have hbne : b ≠ [] := hne b (List.mem_cons_self b rest)
    have htmpb : BeH2.lexLe tmp b = true := hlow b (List.mem_cons_self b rest)
    by_cases hbt : b ≠ tmp
    · -- a new group starts
      have hstep : BeH2.rotLoopStep N
            (tmp, (us.length : ℤ) - 1, us.map (BeH2.rotFor N), tb) b
          = (b, ((us ++ [b]).length : ℤ) - 1, (us ++ [b]).map (BeH2.rotFor N),
             tb ++ [((us ++ [b]).length : ℤ) - 1]) := by
        have harith : (us.length : ℤ) - 1 + 1 = ((us ++ [b]).length : ℤ) - 1 := by
          rw [List.length_append, List.length_singleton]
          push_cast
          ring
        have hmap : us.map (BeH2.rotFor N) ++ [BeH2.rotFor N b]
            = (us ++ [b]).map (BeH2.rotFor N) := by simp
        simp only [BeH2.rotLoopStep]
        rw [if_pos hbt, harith, hmap]
      have hs3 : ∀ c ∈ rest, c ≠ [] := fun c hc => hne c (List.mem_cons_of_mem b hc)
      have hs6 : ∀ u ∈ us ++ [b], BeH2.lexLe u b = true := by
        intro u hu
        rcases List.mem_append.1 hu with h | h
        · exact lexLe_trans (hub u h) htmpb
        · rw [List.mem_singleton.1 h]
          exact lexLe_refl b
      have hs7 : (us ++ [b]).Pairwise (fun a c => BeH2.lexLe a c = true ∧ a ≠ c) := by
        rw [List.pairwise_append]
        refine ⟨hpw, List.pairwise_singleton _ b, ?_⟩
        intro u hu v hv
        rw [List.mem_singleton] at hv
        subst hv
        refine ⟨lexLe_trans (hub u hu) htmpb, ?_⟩
        intro huv
        exact hbt (lexLe_antisymm (huv ▸ hub u hu) htmpb)
      obtain ⟨tmp', bIdx', ext', newtb', heq, hpw2, hsub2, hlen2, hidx2⟩ :=
        ih b (us ++ [b]) (tb ++ [((us ++ [b]).length : ℤ) - 1]) hsort' hhead hs3
          (fun h => absurd h (by simp)) (fun _ => List.getLast?_concat us) hs6 hs7
      refine ⟨tmp', bIdx', b :: ext', (((us ++ [b]).length : ℤ) - 1) :: newtb',
        ?_, ?_, ?_, ?_, ?_⟩
      · rw [hstep, heq]
        simp [List.append_assoc]
      · have hassoc : us ++ b :: ext' = (us ++ [b]) ++ ext' := by simp
        rw [hassoc]
        exact hpw2
      · intro v hv
        rcases List.mem_cons.1 hv with h | h
        · rw [h]; exact List.mem_cons_self b rest
        · exact List.mem_cons_of_mem b (hsub2 v h)
      · simp [hlen2]
      · intro i hi
        cases i with
        | zero =>
          refine ⟨us.length, ?_, by simp, ?_⟩
          · rw [List.getD_cons_zero, List.length_append, List.length_singleton]
            push_cast
            ring
          · rw [List.getD_cons_zero]
            exact getD_append_mid us b ext' []
        | succ i2 =>
          have hi2 : i2 < rest.length := by simpa using hi
          obtain ⟨j, hj1, hj2, hj3⟩ := hidx2 i2 hi2
          refine ⟨j, by simpa using hj1, ?_, ?_⟩
          · simpa [List.append_assoc] using hj2
          · have hassoc : us ++ b :: ext' = (us ++ [b]) ++ ext' := by simp
            rw [hassoc, List.getD_cons_succ]
            exact hj3
    · -- the group continues
      have hb_eq : b = tmp := not_ne_iff.1 hbt
      subst hb_eq
      have husne : us ≠ [] := fun h => hbne (hemp h)
      have h1le : 1 ≤ us.length := List.length_pos.2 husne
      have hstep : BeH2.rotLoopStep N
            (b, (us.length : ℤ) - 1, us.map (BeH2.rotFor N), tb) b
          = (b, (us.length : ℤ) - 1, us.map (BeH2.rotFor N),
             tb ++ [(us.length : ℤ) - 1]) := by
        simp [BeH2.rotLoopStep]
      obtain ⟨tmp', bIdx', ext', newtb', heq, hpw2, hsub2, hlen2, hidx2⟩ :=
        ih b us (tb ++ [(us.length : ℤ) - 1]) hsort' hhead
          (fun c hc => hne c (List.mem_cons_of_mem b hc))
          (fun h => absurd h husne) hlast hub hpw
      refine ⟨tmp', bIdx', ext', ((us.length : ℤ) - 1) :: newtb', ?_, hpw2, ?_, ?_, ?_⟩
      · rw [hstep, heq]
        simp [List.append_assoc]
      · exact fun v hv => List.mem_cons_of_mem b (hsub2 v hv)
      · simp [hlen2]
      · intro i hi
        cases i with
        | zero =>
          refine ⟨us.length - 1, ?_, ?_, ?_⟩
          · rw [List.getD_cons_zero, Nat.cast_sub h1le]
            simp
          · rw [List.length_append]
            omega
          · rw [List.getD_cons_zero,
              getD_append_left' us ext' _ _ (by omega)]
            exact getLast_getD us b [] (hlast husne)
        | succ i2 =>
          have hi2 : i2 < rest.length := by simpa using hi
          obtain ⟨j, hj1, hj2, hj3⟩ := hidx2 i2 hi2
          exact ⟨j, by simpa using hj1, hj2, by rw [List.getD_cons_succ]; exact hj3⟩

end LoadDataHelpers

/-- C6: `LoadData` sorts the basis strings, permutes the sample rows by
the same (stable argsort) permutation so the `i`-th returned sample stays
paired with its original basis string, returns exactly one rotation per
distinct basis string in sorted order — each the product of `rotationX` /
`rotationY` factors at the `'X'`/`'Y'` positions of the string — and
`training_bases[i]` is the index in `rotations` of the rotation of the
`i`-th sorted basis string. -/
theorem claim_C6 (N : ℕ) (tsamples : List (List ℝ)) (lines : List (List Char))
    (hN : 0 < N)
    (hrows : ∀ row ∈ tsamples, row.length = N)
    (hlines : ∀ b ∈ lines, b.length = N + 1)
    (hcount : tsamples.length = lines.length) :
    (BeH2.sortedBasesOf N lines).Pairwise (fun a b => BeH2.lexLe a b = true) ∧
    (∀ i, i < lines.length →
      (BeH2.sortedBasesOf N lines).getD i []
        = (BeH2.basesOf N lines).getD ((BeH2.argsortBases N lines).getD i 0) []) ∧
    (∀ i, i < tsamples.length →
      (BeH2.LoadData N tsamples lines).2.1.getD i []
        = tsamples.getD ((BeH2.argsortBases N lines).getD i 0) []) ∧
    (∃ us : List (List Char),
      (BeH2.LoadData N tsamples lines).1 = us.map (BeH2.rotFor N) ∧
      us.Nodup ∧
      us.Pairwise (fun a b => BeH2.lexLe a b = true) ∧
      (∀ v, v ∈ us ↔ v ∈ BeH2.basesOf N lines) ∧
      (BeH2.LoadData N tsamples lines).2.2.length = lines.length ∧
      (∀ i, i < lines.length → ∃ j : ℕ,
        (BeH2.LoadData N tsamples lines).2.2.getD i 0 = (j : ℤ) ∧ j < us.length ∧
        us.getD j [] = (BeH2.sortedBasesOf N lines).getD i [] ∧
        (BeH2.LoadData N tsamples lines).1.getD j []
          = BeH2.rotFor N ((BeH2.sortedBasesOf N lines).getD i []))) ∧
    (∀ b ∈ BeH2.basesOf N lines, BeH2.rotFor N b = BeH2.rotSpec b) := by
  have htransB : ∀ a b c : List Char, BeH2.lexLe a b = true → BeH2.lexLe b c = true →
      BeH2.lexLe a c = true := fun a b c => lexLe_trans
  have htotalB : ∀ a b : List Char, (BeH2.lexLe a b || BeH2.lexLe b a) = true := by
    intro a b
    rcases lexLe_total a b with h | h <;> simp [h]
  have hbaseslen : (BeH2.basesOf N lines).length = lines.length := by
    simp [BeH2.basesOf]
  have hblen : ∀ b ∈ BeH2.basesOf N lines, b.length = N := by
    intro b hb
    simp only [BeH2.basesOf, List.mem_map] at hb
    obtain ⟨c, hc, hcb⟩ := hb
    rw [← hcb, List.length_take, hlines c hc]
    omega
  have hbne : ∀ b ∈ BeH2.basesOf N lines, b ≠ [] := by
    intro b hb
    have := hblen b hb
    intro hnil
    rw [hnil] at this
    simp at this
    omega
  have hsorted : (BeH2.sortedBasesOf N lines).Pairwise
      (fun a b => BeH2.lexLe a b = true) :=
    List.sorted_mergeSort htransB htotalB (BeH2.basesOf N lines)
  have hsblen : (BeH2.sortedBasesOf N lines).length = lines.length := by
    rw [BeH2.sortedBasesOf, List.length_mergeSort, hbaseslen]
  have hpermlen : (BeH2.argsortBases N lines).length = lines.length := by
    rw [BeH2.argsortBases, List.length_mergeSort, List.length_range, hbaseslen]
  have hsmem : ∀ v, v ∈ BeH2.sortedBasesOf N lines ↔ v ∈ BeH2.basesOf N lines :=
    fun v => (List.mergeSort_perm (BeH2.basesOf N lines) BeH2.lexLe).mem_iff
  -- the sorted list is the argsort permutation applied to the bases
  have hmapms : (BeH2.argsortBases N lines).map
        (fun k => (BeH2.basesOf N lines).getD k []) = BeH2.sortedBasesOf N lines := by
    have hmm : (List.map (fun k => (BeH2.basesOf N lines).getD k [])
        ((List.range (BeH2.basesOf N lines).length).mergeSort fun a b =>
          BeH2.lexLe ((BeH2.basesOf N lines).getD a [])
            ((BeH2.basesOf N lines).getD b [])))
        = (List.map (fun k => (BeH2.basesOf N lines).getD k [])
            (List.range (BeH2.basesOf N lines).length)).mergeSort BeH2.lexLe :=
      List.map_mergeSort (fun a _ b _ => rfl)
    rw [BeH2.argsortBases, BeH2.sortedBasesOf, hmm, map_getD_range]
  refine ⟨hsorted, ?_, ?_, ?_, fun b hb => rotFor_eq_rotSpec N b (hblen b hb)⟩
  · intro i hi
    have hi2 : i < (BeH2.argsortBases N lines).length := by omega
    have hmapi := congrArg (fun l => l.getD i ([] : List Char)) hmapms
    simp only at hmapi
    rw [← hmapi,
      List.getD_eq_getElem _ _ (by rw [List.length_map]; omega),
      List.getElem_map, List.getD_eq_getElem _ _ hi2]
  · intro i hi
    have hi1 : i < ((List.range tsamples.length).map fun i =>
        tsamples.getD ((BeH2.argsortBases N lines).getD i 0) []).length := by simp [hi]
    show ((List.range tsamples.length).map fun i =>
        tsamples.getD ((BeH2.argsortBases N lines).getD i 0) []).getD i [] = _
    rw [List.getD_eq_getElem _ _ hi1, List.getElem_map, List.getElem_range]
  · have hinit : (([] : List Char), (-1 : ℤ), ([] : List BeH2.RotOp), ([] : List ℤ))
        = (([] : List Char),
           (((([] : List (List Char))).length : ℕ) : ℤ) - 1,
           ([] : List (List Char)).map (BeH2.rotFor N), ([] : List ℤ)) := by
      norm_num
    obtain ⟨tmp', bIdx', ext, newtb, heq, hpw, hsub, hlenn, hidx⟩ :=
      rotLoop_fold N (BeH2.sortedBasesOf N lines) [] [] []
        hsorted (fun b _ => rfl)
        (fun b hb => hbne b ((hsmem b).1 hb))
        (fun _ => rfl) (fun h => absurd rfl h)
        (fun u hu => absurd hu (List.not_mem_nil u)) List.Pairwise.nil
    simp only [List.nil_append] at heq hpw hidx
    have hst : (BeH2.sortedBasesOf N lines).foldl (BeH2.rotLoopStep N)
          ([], -1, [], [])
        = (tmp', bIdx', ext.map (BeH2.rotFor N), newtb) := by
      rw [hinit]
      simpa using heq
    have hrots : (BeH2.LoadData N tsamples lines).1 = ext.map (BeH2.rotFor N) := by
      show ((BeH2.sortedBasesOf N lines).foldl (BeH2.rotLoopStep N)
        ([], -1, [], [])).2.2.1 = _
      rw [hst]
    have htb : (BeH2.LoadData N tsamples lines).2.2 = newtb := by
      show ((BeH2.sortedBasesOf N lines).foldl (BeH2.rotLoopStep N)
        ([], -1, [], [])).2.2.2 = _
      rw [hst]
    refine ⟨ext, hrots, ?_, hpw.imp And.left, ?_, ?_, ?_⟩
    · exact (hpw.imp And.right : _)
    · intro v
      constructor
      · intro hv
        exact (hsmem v).1 (hsub v hv)
      · intro hv
        obtain ⟨i, hi, hieq⟩ := List.mem_iff_getElem.1 ((hsmem v).2 hv)
        obtain ⟨j, _, hj2, hj3⟩ := hidx i hi
        rw [List.getD_eq_getElem _ _ hi, hieq] at hj3
        rw [← hj3, List.getD_eq_getElem _ _ hj2]
        exact List.getElem_mem hj2
    · rw [htb, hlenn, hsblen]
    · intro i hi
      obtain ⟨j, hj1, hj2, hj3⟩ := hidx i (by omega)
      refine ⟨j, by rw [htb]; exact hj1, hj2, hj3, ?_⟩
      rw [hrots, List.getD_eq_getElem _ _ (by simpa using hj2), List.getElem_map,
        ← hj3, List.getD_eq_getElem _ _ hj2]

/-- Witness for C6 on two one-qubit samples with bases lines `"Xa"`,
`"Za"`. -/
theorem claim_C6_witness :
    (0 < 1 ∧ (∀ row ∈ ([[(1 : ℝ)], [(2 : ℝ)]] : List (List ℝ)), row.length = 1) ∧
     (∀ b ∈ ([['X', 'a'], ['Z', 'a']] : List (List Char)), b.length = 1 + 1) ∧
     ([[(1 : ℝ)], [(2 : ℝ)]] : List (List ℝ)).length
       = ([['X', 'a'], ['Z', 'a']] : List (List Char)).length) ∧
    ((BeH2.sortedBasesOf 1 [['X', 'a'], ['Z', 'a']]).Pairwise
        (fun a b => BeH2.lexLe a b = true) ∧
    (∀ i, i < ([['X', 'a'], ['Z', 'a']] : List (List Char)).length →
      (BeH2.sortedBasesOf 1 [['X', 'a'], ['Z', 'a']]).getD i []
        = (BeH2.basesOf 1 [['X', 'a'], ['Z', 'a']]).getD
            ((BeH2.argsortBases 1 [['X', 'a'], ['Z', 'a']]).getD i 0) []) ∧
    (∀ i, i < ([[(1 : ℝ)], [(2 : ℝ)]] : List (List ℝ)).length →
      (BeH2.LoadData 1 [[(1 : ℝ)], [(2 : ℝ)]] [['X', 'a'], ['Z', 'a']]).2.1.getD i []
        = ([[(1 : ℝ)], [(2 : ℝ)]] : List (List ℝ)).getD
            ((BeH2.argsortBases 1 [['X', 'a'], ['Z', 'a']]).getD i 0) []) ∧
    (∃ us : List (List Char),
      (BeH2.LoadData 1 [[(1 : ℝ)], [(2 : ℝ)]] [['X', 'a'], ['Z', 'a']]).1
        = us.map (BeH2.rotFor 1) ∧
      us.Nodup ∧
      us.Pairwise (fun a b => BeH2.lexLe a b = true) ∧
      (∀ v, v ∈ us ↔ v ∈ BeH2.basesOf 1 [['X', 'a'], ['Z', 'a']]) ∧
      (BeH2.LoadData 1 [[(1 : ℝ)], [(2 : ℝ)]] [['X', 'a'], ['Z', 'a']]).2.2.length
        = ([['X', 'a'], ['Z', 'a']] : List (List Char)).length ∧
      (∀ i, i < ([['X', 'a'], ['Z', 'a']] : List (List Char)).length → ∃ j : ℕ,
        (BeH2.LoadData 1 [[(1 : ℝ)], [(2 : ℝ)]] [['X', 'a'], ['Z', 'a']]).2.2.getD i 0
          = (j : ℤ) ∧ j < us.length ∧
        us.getD j [] = (BeH2.sortedBasesOf 1 [['X', 'a'], ['Z', 'a']]).getD i [] ∧
        (BeH2.LoadData 1 [[(1 : ℝ)], [(2 : ℝ)]] [['X', 'a'], ['Z', 'a']]).1.getD j []
          = BeH2.rotFor 1 ((BeH2.sortedBasesOf 1 [['X', 'a'], ['Z', 'a']]).getD i []))) ∧
    (∀ b ∈ BeH2.basesOf 1 [['X', 'a'], ['Z', 'a']],
      BeH2.rotFor 1 b = BeH2.rotSpec b)) :=
  ⟨⟨by decide, by decide, by decide, by decide⟩,
    claim_C6 1 [[(1 : ℝ)], [(2 : ℝ)]] [['X', 'a'], ['Z', 'a']]
      (by decide) (by decide) (by decide) (by decide)⟩

/-- C7: for a Hermitian matrix, `eigensolve` returns the smallest
eigenvalue together with a corresponding unit eigenvector: the first entry
of the ascending eigenvalue array and the first column of the eigenvector
matrix of the Hermitian eigen-decomposition. -/
theorem claim_C7 {n : ℕ} {H : Matrix (Fin (n + 1)) (Fin (n + 1)) ℂ}
    (hH : H.IsHermitian) (e : BeH2.EighData (n + 1) H) :
    H.mulVec (BeH2.eigensolve e).2
        = (((BeH2.eigensolve e).1 : ℝ) : ℂ) • (BeH2.eigensolve e).2 ∧
    (BeH2.eigensolve e).2 ≠ 0 ∧
    (∑ r, Complex.normSq ((BeH2.eigensolve e).2 r)) = 1 ∧
    (∀ μ : ℝ, (∃ x : Fin (n + 1) → ℂ, x ≠ 0 ∧ H.mulVec x = ((μ : ℝ) : ℂ) • x) →
      (BeH2.eigensolve e).1 ≤ μ) := by
  refine ⟨e.eigen 0, ?_, e.unit 0, ?_⟩
  · intro hz
    have hv : ∀ r, e.v r 0 = (0 : ℂ) := fun r => congrFun hz r
    have h1 := e.unit 0
    simp only [hv] at h1
    simp at h1
  · rintro μ ⟨x, hx0, hxe⟩
    obtain ⟨i, hi⟩ := e.complete (((μ : ℝ)) : ℂ) x hx0 hxe
    have hwi : e.w i = μ := Complex.ofReal_inj.1 hi
    calc (BeH2.eigensolve e).1 = e.w 0 := rfl
      _ ≤ e.w i := e.ascending 0 i (Fin.zero_le i)
      _ = μ := hwi

/-- Witness for C7 at the 1×1 matrix `[[2]]`. -/
theorem claim_C7_witness :
    HW.IsHermitian ∧
    (HW.mulVec (BeH2.eigensolve eighW).2
        = (((BeH2.eigensolve eighW).1 : ℝ) : ℂ) • (BeH2.eigensolve eighW).2 ∧
    (BeH2.eigensolve eighW).2 ≠ 0 ∧
    (∑ r, Complex.normSq ((BeH2.eigensolve eighW).2 r)) = 1 ∧
    (∀ μ : ℝ, (∃ x : Fin 1 → ℂ, x ≠ 0 ∧ HW.mulVec x = ((μ : ℝ) : ℂ) • x) →
      (BeH2.eigensolve eighW).1 ≤ μ)) := by
  have hH : HW.IsHermitian := by
    ext i j
    simp [HW, Matrix.conjTranspose_apply]
  exact ⟨hH, claim_C7 hH eighW⟩

/-- C1: for a batch of 0/1 samples and the vector of their log-amplitudes,
`VariationalMonteCarlo.localenergy` returns, per sample,
`-δ·Σ_j s_j + V·Σ_nn s_i s_j + (V/8)·Σ_nnn s_i s_j + (V/64)·Σ_nnnn s_i s_j
- (Ω/2)·Σ_j exp(logψ(flip_j s) - logψ(s))`, with the bond lists from
`buildlattice`. -/
theorem claim_C1 (M : VMC.Model) (s : List ℕ) (hlen : s.length = M.N)
    (h01 : ∀ x ∈ s, x ≤ 1) :
    VMC.localenergy M s (M.logpsiFn s) =
      -M.delta * (((List.range M.N).map fun j => ((s.getD j 0 : ℕ) : ℝ)).sum)
      + M.V * (((VMC.nnList M.Lx M.Ly).map fun b =>
          ((s.getD b.1 0 * s.getD b.2 0 : ℕ) : ℝ)).sum)
      + M.V / 8 * (((VMC.nnnList M.Lx M.Ly).map fun b =>
          ((s.getD b.1 0 * s.getD b.2 0 : ℕ) : ℝ)).sum)
      + M.V / 64 * (((VMC.nnnnList M.Lx M.Ly).map fun b =>
          ((s.getD b.1 0 * s.getD b.2 0 : ℕ) : ℝ)).sum)
      - 0.5 * M.Omega * (((List.range M.N).map fun j =>
          Real.exp (M.logpsiFn (VMC.flipAt s j) - M.logpsiFn s)).sum) := by
  unfold VMC.localenergy
  simp only [foldl_add_eq_sum, sum_map_smul]
  ring

/-- Witness for C1 at the 2×1 lattice and the sample row `[1, 0]`. -/
theorem claim_C1_witness :
    (([1, 0] : List ℕ).length = mdlW.N ∧ ∀ x ∈ ([1, 0] : List ℕ), x ≤ 1) ∧
    VMC.localenergy mdlW [1, 0] (mdlW.logpsiFn [1, 0]) =
      -mdlW.delta * (((List.range mdlW.N).map fun j =>
          ((([1, 0] : List ℕ).getD j 0 : ℕ) : ℝ)).sum)
      + mdlW.V * (((VMC.nnList mdlW.Lx mdlW.Ly).map fun b =>
          ((([1, 0] : List ℕ).getD b.1 0 * ([1, 0] : List ℕ).getD b.2 0 : ℕ) : ℝ)).sum)
      + mdlW.V / 8 * (((VMC.nnnList mdlW.Lx mdlW.Ly).map fun b =>
          ((([1, 0] : List ℕ).getD b.1 0 * ([1, 0] : List ℕ).getD b.2 0 : ℕ) : ℝ)).sum)
      + mdlW.V / 64 * (((VMC.nnnnList mdlW.Lx mdlW.Ly).map fun b =>
          ((([1, 0] : List ℕ).getD b.1 0 * ([1, 0] : List ℕ).getD b.2 0 : ℕ) : ℝ)).sum)
      - 0.5 * mdlW.Omega * (((List.range mdlW.N).map fun j =>
          Real.exp (mdlW.logpsiFn (VMC.flipAt [1, 0] j) - mdlW.logpsiFn [1, 0])).sum) :=
  ⟨⟨by decide, by decide⟩, claim_C1 mdlW [1, 0] (by decide) (by decide)⟩

/-- C9: `localenergy` leaves the samples array unchanged; with the array
threaded as state through the spin-flip loop, the final array equals the
input. -/
theorem claim_C9 (M : VMC.Model) (s : List ℕ) (lp : ℝ) :
    (VMC.localenergyRun M s lp).2 = s := by
  unfold VMC.localenergyRun
  suffices h : ∀ (l : List ℕ) (p : ℝ × List ℕ),
      (l.foldl (fun es j =>
        let flip_samples := es.2.set j (1 - es.2.getD j 0)
        ((es.1 + -0.5 * M.Omega * Real.exp (M.logpsiFn flip_samples - lp)), es.2)) p).2
        = p.2 by
    exact h (List.range M.N) _
  intro l
  induction l with
  | nil => intro p; rfl
  | cons x xs ih => intro p; exact ih _
